import Mathlib

/-!
Verification of the ranking-up leaderboard core (src/Leaderboard.cpp,
src/PlayerStream.cpp) against its specification.

Shallow embedding conventions:
* `std::vector<Player>` ranges are `List Player`; `size_t` is `Nat`.
* `Player` (whose header is not in src/) is modelled from the spec: an entity
  with a single semantically relevant, totally ordered numeric attribute
  `level_`; `operator<` compares solely by level.  A `name_` field keeps
  entities distinguishable beyond their ordering key.
* Standard-library calls (`std::nth_element`, `std::make_heap`,
  `std::pop_heap`, `std::sort`) are constrained only by their documented
  contracts; theorems quantify over any conforming result, and executable
  canonical refinements are provided where a concrete function is needed.
* Undefined behaviour reachable in the code (`front()` on an empty vector,
  `%` by zero) is made explicit with `Except RankErr`.
* Wall-clock timing (`elapsed_`) is not modelled.
-/

/-- Modelled from the spec: the Ranked Entity (`Player`, header not in src/).
Entities are compared solely by `level_`; `name_` is the opaque remainder. -/
structure Player where
  name_ : String
  level_ : Nat
deriving DecidableEq

instance : Inhabited Player := ⟨⟨"", 0⟩⟩

/-- Ordering capability from the spec: `operator<` on `Player` compares by level.
`LevelLE a b` is the reflexive closure used to state sortedness. -/
def LevelLE (a b : Player) : Prop := a.level_ ≤ b.level_

/-- Level of the element at index `i` (out-of-range reads give the default,
they are only used under in-range hypotheses). -/
def lvAt (l : List Player) (i : Nat) : Nat := (l.getD i default).level_

/-- Levels of a list of players, in order. -/
def levels (l : List Player) : List Nat := l.map Player.level_

/-- RankingResult (Leaderboard.cpp line 15): sorted top players plus cutoff map.
The `unordered_map` is modelled as an association list in insertion order (all
inserted keys are distinct); `elapsed_` is not modelled. -/
structure RankingResult where
  top_ : List Player
  cutoffs_ : List (Nat × Nat)
deriving DecidableEq

/-- Models `std::sort(..., operator<)` on players (lines 48, 86, 223): the
contract is any permutation sorted by level; we use the canonical stable
implementation.  Every claim about a sorted result depends only on its level
sequence, which is the same for all conforming sorts. -/
def sortPlayers (l : List Player) : List Player :=
  l.mergeSort (fun a b => decide (a.level_ ≤ b.level_))

/-- Ascending sort on bare levels, used for the naive full-sort baseline. -/
def sortLv (xs : List Nat) : List Nat := xs.mergeSort (fun a b => decide (a ≤ b))

/-- Naive full-sort baseline: the `k` largest levels of `xs`, ascending
(the last `k` entries of the full ascending sort). -/
def naiveTopLevels (xs : List Nat) (k : Nat) : List Nat :=
  (sortLv xs).drop (xs.length - k)

/-- Min-heap property by level over the whole list (parent index `(j-1)/2`). -/
def IsMinHeapL (l : List Player) : Prop :=
  ∀ j, j < l.length → 0 < j → lvAt l ((j - 1) / 2) ≤ lvAt l j

instance (l : List Player) : Decidable (IsMinHeapL l) := by
  unfold IsMinHeapL; infer_instance

/-- Max-heap property by level on the prefix `[0, m)` of `l`. -/
def MaxHeapUpTo (l : List Player) (m : Nat) : Prop :=
  ∀ j, j < m → 0 < j → lvAt l j ≤ lvAt l ((j - 1) / 2)

instance (l : List Player) (m : Nat) : Decidable (MaxHeapUpTo l m) := by
  unfold MaxHeapUpTo; infer_instance

/-- Invariant of the percolate-down loop: the min-heap property may fail only
between position `i` and its children, and (when `i` is not the root) `i`'s
parent already bounds `i`'s children from below. -/
def AlmostMinHeapAt (l : List Player) (i : Nat) : Prop :=
  (∀ j, j < l.length → 0 < j → (j - 1) / 2 ≠ i → lvAt l ((j - 1) / 2) ≤ lvAt l j) ∧
  (0 < i → ∀ j, j < l.length → 0 < j → (j - 1) / 2 = i → lvAt l ((i - 1) / 2) ≤ lvAt l j)

/-- Effect of `std::swap(*(first + i), *(first + j))` (line 145). -/
def swapAt2 (l : List Player) (i j : Nat) : List Player :=
  (l.set i (l.getD j default)).set j (l.getD i default)

/-- First half of the smallest-child computation (lines 131-137): `smallestIdx`
after comparing with the left child. -/
def smallestAfterLeft (l : List Player) (index : Nat) : Nat :=
  if 2 * index + 1 < l.length ∧ lvAt l (2 * index + 1) < lvAt l index then
    2 * index + 1
  else index

/-- Smallest of `index` and its in-range children by level (lines 131-140). -/
def smallestIdx (l : List Player) (index : Nat) : Nat :=
  if 2 * index + 2 < l.length ∧ lvAt l (2 * index + 2) < lvAt l (smallestAfterLeft l index) then
    2 * index + 2
  else smallestAfterLeft l index

/-- Percolate-down loop of `Online::replaceMin` (lines 129-147): repeatedly swap
position `index` with its smaller child until neither child is smaller. -/
def percDown (l : List Player) (index : Nat) : List Player :=
  if hEq : smallestIdx l index = index then l
  else percDown (swapAt2 l index (smallestIdx l index)) (smallestIdx l index)
termination_by l.length - index
decreasing_by
  have hlen : (swapAt2 l index (smallestIdx l index)).length = l.length := by
    simp [swapAt2]
  have hb : index < smallestIdx l index ∧ smallestIdx l index < l.length := by
    unfold smallestIdx smallestAfterLeft at hEq ⊢
    split_ifs at hEq ⊢ <;> omega
  omega

namespace Online

/-- `Online::replaceMin` (lines 119-148).  The pair's second component models
the by-reference `target` after the call: `some t` when the code provably left
it untouched (the empty-range early return), `none` when it was moved from
(line 126) and its contents are unspecified. -/
def replaceMin (heap : List Player) (target : Player) : List Player × Option Player :=
  if heap.length = 0 then
    (heap, some target)
  else
    (percDown (heap.set 0 target) 0, none)

end Online

/-- `VectorPlayerStream` (PlayerStream.cpp): a vector of players plus a cursor. -/
structure VectorPlayerStream where
  players_ : List Player
  currentIndex_ : Nat
deriving DecidableEq

/-- Constructor (PlayerStream.cpp lines 11-15): copy the vector, cursor at 0. -/
def VectorPlayerStream.ofPlayers (players : List Player) : VectorPlayerStream :=
  { players_ := players, currentIndex_ := 0 }

/-- `VectorPlayerStream::nextPlayer` (lines 26-33).  The `throw` is modelled as
`Except.error`; on success the read player and the advanced stream are returned
(the C++ mutates the stream in place). -/
def nextPlayer (s : VectorPlayerStream) : Except String (Player × VectorPlayerStream) :=
  if s.currentIndex_ ≥ s.players_.length then
    Except.error "No more players remaining in the stream."
  else
    Except.ok (s.players_.getD s.currentIndex_ default,
      { s with currentIndex_ := s.currentIndex_ + 1 })

/-- `VectorPlayerStream::remaining` (lines 40-42): `players_.size() - currentIndex_`
in `size_t` arithmetic.  Under the representation invariant
`currentIndex_ ≤ players_.size()` (established by the constructor and preserved
by `nextPlayer`) the subtraction never wraps, so `Nat` subtraction agrees with
the C++ value on every reachable state. -/
def remaining (s : VectorPlayerStream) : Nat :=
  s.players_.length - s.currentIndex_

/-- Read the stream to exhaustion through `nextPlayer`, checking `remaining`
before each call, and collect everything produced (harness for the stream
claims; mirrors how Online::rankIncoming drives the stream). -/
def drain (s : VectorPlayerStream) : List Player :=
  if h : 0 < remaining s then
    match h2 : nextPlayer s with
    | Except.error _ => []
    | Except.ok (p, s') => p :: drain s'
  else []
termination_by remaining s
decreasing_by
  have hidx : s.currentIndex_ < s.players_.length := by
    unfold remaining at h; omega
  unfold nextPlayer at h2
  rw [if_neg (by omega)] at h2
  injection h2 with h3
  simp only [Prod.mk.injEq] at h3
  obtain ⟨-, h6⟩ := h3
  subst h6
  show s.players_.length - (s.currentIndex_ + 1) < s.players_.length - s.currentIndex_
  omega

/-- Errors of the online tracker.  `sourceExhausted` models the stream throw;
`emptyFront` and `modZero` mark the two undefined-behaviour sites reachable
with `reporting_interval = 0` (`front()` on an empty vector, `%` by zero). -/
inductive RankErr where
  | sourceExhausted : RankErr
  | emptyFront : RankErr
  | modZero : RankErr
deriving DecidableEq

namespace Online

/-- Priming loop of `Online::rankIncoming` (lines 190-193): pull up to
`reporting_interval` players while the stream reports some remaining. -/
def primeLoop (s : VectorPlayerStream) (playerCount reporting_interval : Nat)
    (acc : List Player) :
    Except RankErr (List Player × Nat × VectorPlayerStream) :=
  if h : playerCount < reporting_interval ∧ 0 < remaining s then
    match h2 : nextPlayer s with
    | Except.error _ => Except.error RankErr.sourceExhausted
    | Except.ok (p, s') => primeLoop s' (playerCount + 1) reporting_interval (acc ++ [p])
  else Except.ok (acc, playerCount, s)
termination_by remaining s
decreasing_by
  obtain ⟨-, hrem⟩ := h
  have hidx : s.currentIndex_ < s.players_.length := by
    unfold remaining at hrem; omega
  unfold nextPlayer at h2
  rw [if_neg (by omega)] at h2
  injection h2 with h3
  simp only [Prod.mk.injEq] at h3
  obtain ⟨-, h6⟩ := h3
  subst h6
  show s.players_.length - (s.currentIndex_ + 1) < s.players_.length - s.currentIndex_
  omega

/-- Admission step of `Online::rankIncoming` (lines 206-209): if the new
player's level exceeds the current heap root's (`topPlayers.front()`), replace
the root through `replaceMin`; otherwise the buffer is left unchanged. -/
def admitStep (root : Player) (rest : List Player) (next : Player) : List Player :=
  if root.level_ < next.level_ then (replaceMin (root :: rest) next).1
  else root :: rest

/-- Main loop of `Online::rankIncoming` (lines 202-215): read each remaining
player, admit it via `admitStep`, and record a cutoff at every multiple of the
reporting interval.  `front()` on an empty buffer and `%` by zero surface as
errors. -/
def processLoop (s : VectorPlayerStream) (topPlayers : List Player)
    (playerCount reporting_interval : Nat) (cutoffs : List (Nat × Nat)) :
    Except RankErr (List Player × Nat × List (Nat × Nat) × VectorPlayerStream) :=
  if h : 0 < remaining s then
    match h2 : nextPlayer s with
    | Except.error _ => Except.error RankErr.sourceExhausted
    | Except.ok (next, s') =>
      match topPlayers with
      | [] => Except.error RankErr.emptyFront
      | root :: rest =>
        if reporting_interval = 0 then Except.error RankErr.modZero
        else if (playerCount + 1) % reporting_interval = 0 then
          match admitStep root rest next with
          | [] => Except.error RankErr.emptyFront
          | root' :: rest' =>
            processLoop s' (root' :: rest') (playerCount + 1) reporting_interval
              (cutoffs ++ [(playerCount + 1, root'.level_)])
        else processLoop s' (admitStep root rest next) (playerCount + 1)
          reporting_interval cutoffs
  else Except.ok (topPlayers, playerCount, cutoffs, s)
termination_by remaining s
decreasing_by
  all_goals
    have hidx : s.currentIndex_ < s.players_.length := by
      unfold remaining at h; omega
  all_goals
    unfold nextPlayer at h2
    rw [if_neg (by omega)] at h2
    injection h2 with h3
    simp only [Prod.mk.injEq] at h3
    obtain ⟨-, h6⟩ := h3
    subst h6
    show s.players_.length - (s.currentIndex_ + 1) < s.players_.length - s.currentIndex_
    omega

/-- Tail of `Online::rankIncoming` after `std::make_heap` (lines 196-228):
record the cutoff after the initial batch if it filled the interval, run the
main loop, record the final cutoff if the total is not a multiple of the
interval, and sort the buffer ascending.  `topPlayers0` is the primed buffer
as arranged by `std::make_heap(..., std::greater<Player>())`, which the C++
standard constrains only to a min-heap permutation of the primed players. -/
def rankAfterPrime (topPlayers0 : List Player) (playerCount0 : Nat)
    (s : VectorPlayerStream) (reporting_interval : Nat) :
    Except RankErr RankingResult :=
  match
    (if playerCount0 = reporting_interval then
      match topPlayers0 with
      | [] => Except.error RankErr.emptyFront
      | root :: _ => Except.ok [(playerCount0, root.level_)]
    else Except.ok ([] : List (Nat × Nat))) with
  | Except.error e => Except.error e
  | Except.ok cut0 =>
    match processLoop s topPlayers0 playerCount0 reporting_interval cut0 with
    | Except.error e => Except.error e
    | Except.ok (topPlayers, playerCount, cutoffs, _) =>
      if reporting_interval = 0 then Except.error RankErr.modZero
      else if playerCount % reporting_interval ≠ 0 then
        match topPlayers with
        | [] => Except.error RankErr.emptyFront
        | root :: _ =>
          Except.ok { top_ := sortPlayers topPlayers,
                      cutoffs_ := cutoffs ++ [(playerCount, root.level_)] }
      else Except.ok { top_ := sortPlayers topPlayers, cutoffs_ := cutoffs }

/-- Models `std::make_heap(..., std::greater<Player>())` (line 194).  The C++
standard specifies only a contract: the result is some permutation of the input
satisfying the min-heap property.  This canonical conforming refinement sorts
ascending by level (an ascending list is a min-heap); every theorem about the
tracker instead takes an arbitrary conforming `topPlayers0` as hypothesis, so
nothing depends on this choice. -/
def makeHeapGreater (l : List Player) : List Player := sortPlayers l

/-- `Online::rankIncoming` (lines 181-229), composed from the priming loop, the
contract model of `std::make_heap`, and the tail. -/
def rankIncoming (stream : VectorPlayerStream) (reporting_interval : Nat) :
    Except RankErr RankingResult :=
  match primeLoop stream 0 reporting_interval [] with
  | Except.error e => Except.error e
  | Except.ok (buf0, playerCount0, s1) =>
    rankAfterPrime (makeHeapGreater buf0) playerCount0 s1 reporting_interval

end Online

namespace Offline

/-- `Offline::quickSelectRank` (Leaderboard.cpp lines 35-54).  The argument
`players` denotes the vector contents immediately after the `std::nth_element`
call on line 42, whose effect on the original input is constrained only by
`NthElementPost`; lines 44-53 are embedded directly: copy the trailing
`topCount` elements and sort them ascending. -/
def quickSelectRank (players : List Player) : RankingResult :=
  let totalPlayers := players.length
  let topCount := (totalPlayers + 9) / 10
  let topPlayers := players.drop (totalPlayers - topCount)
  { top_ := sortPlayers topPlayers, cutoffs_ := [] }

/-- Contract of `std::nth_element(first, nth, last)` with `nth = first + pos`
(C++ standard): the result is a permutation of the input and no element before
position `pos` compares greater than any element at or past `pos`. -/
def NthElementPost (orig mid : List Player) (pos : Nat) : Prop :=
  mid.Perm orig ∧ ∀ a ∈ mid.take pos, ∀ b ∈ mid.drop pos, a.level_ ≤ b.level_

instance (orig mid : List Player) (pos : Nat) : Decidable (NthElementPost orig mid pos) := by
  unfold NthElementPost; infer_instance

/-- Contract of one `std::pop_heap(first, first + m)` call (C++ standard): the
old root moves to position `m - 1`, the prefix `[0, m)` is permuted in place
(nothing at or past `m` moves), and `[0, m - 1)` is again a max-heap. -/
def PopHeapPost (before after : List Player) (m : Nat) : Prop :=
  after.length = before.length ∧
  (after.take m).Perm (before.take m) ∧
  after.drop m = before.drop m ∧
  after.getD (m - 1) default = before.getD 0 default ∧
  MaxHeapUpTo after (m - 1)

instance (before after : List Player) (m : Nat) : Decidable (PopHeapPost before after m) := by
  unfold PopHeapPost; infer_instance

/-- A conforming trace of the pop loop of `Offline::heapRank` (lines 80-83):
`states.getD i []` is the vector after the `i`-th `std::pop_heap` call, whose
range `[begin, end - i)` has size `n - i`. -/
def PopHeapTrace (h0 : List Player) (states : List (List Player)) (k : Nat) : Prop :=
  states.length = k ∧
  ∀ i, i < k → PopHeapPost ((h0 :: states).getD i []) (states.getD i []) (h0.length - i)

instance (h0 : List Player) (states : List (List Player)) (k : Nat) :
    Decidable (PopHeapTrace h0 states k) := by
  unfold PopHeapTrace; infer_instance

/-- Elements pushed into `topPlayers` by the pop loop (line 82): after the
`i`-th pop, the element at position `size - 1 - i` is appended. -/
def heapExtract (states : List (List Player)) (n k : Nat) : List Player :=
  (List.range k).map (fun i => (states.getD i []).getD (n - 1 - i) default)

/-- `Offline::heapRank` (lines 69-92).  `h0` denotes the vector after the
`std::make_heap` call on line 76 (constrained, by that call's contract, to a
max-heap permutation of the input) and `states` a conforming trace of the
`std::pop_heap` loop; lines 79-91 are embedded directly. -/
def heapRank (h0 : List Player) (states : List (List Player)) : RankingResult :=
  let totalPlayers := h0.length
  let topCount := (totalPlayers + 9) / 10
  { top_ := sortPlayers (heapExtract states totalPlayers topCount), cutoffs_ := [] }

end Offline

/-- Multiples of `R` lying in the interval `(a, b]`, in increasing order. -/
def multiplesIn (a b R : Nat) : List Nat :=
  (List.range' (a + 1) (b - a)).filter (fun c => decide (c % R = 0))

/-- Key set claimed for the cutoff map: the positive multiples of `R` up to the
total `T`, then `T` itself when `T` is not a multiple of `R`. -/
def cutoffKeysList (T R : Nat) : List Nat :=
  multiplesIn 0 T R ++ (if T % R ≠ 0 then [T] else [])

/-- Minimum level among the true top-`min R c` levels of the first `c` players
of `v` (the head of the ascending naive-top list). -/
def trueCutoff (v : List Player) (c R : Nat) : Nat :=
  (naiveTopLevels (levels (v.take c)) (min R c)).headD 0

/-- The cutoff association list the spec demands of the streaming tracker. -/
def expectedCutoffs (v : List Player) (R : Nat) : List (Nat × Nat) :=
  (cutoffKeysList v.length R).map (fun c => (c, trueCutoff v c R))

/-- `sel` is a size-`k` sub-multiset of `base` dominating everything left over:
the defining property of "the `k` largest levels". -/
def IsTopSel (sel base : List Nat) (k : Nat) : Prop :=
  sel.length = k ∧ ∃ rest, (sel ++ rest).Perm base ∧ ∀ b ∈ rest, ∀ a ∈ sel, b ≤ a

/-! ### Sorted-list toolkit -/

theorem sortLv_perm (xs : List Nat) : (sortLv xs).Perm xs :=
  List.mergeSort_perm xs _

theorem sortLv_sorted (xs : List Nat) : List.Sorted (· ≤ ·) (sortLv xs) := by
  have h := @List.sorted_mergeSort Nat (fun a b => decide (a ≤ b))
    (fun a b c hab hbc => by simp only [decide_eq_true_eq] at *; omega)
    (fun a b => by simp only [Bool.or_eq_true, decide_eq_true_eq]; omega) xs
  exact h.imp (fun hab => by simpa using hab)

theorem sortLv_length (xs : List Nat) : (sortLv xs).length = xs.length :=
  (sortLv_perm xs).length_eq

theorem sorted_unique {xs ys : List Nat} (h : xs.Perm ys)
    (hx : List.Sorted (· ≤ ·) xs) (hy : List.Sorted (· ≤ ·) ys) : xs = ys :=
  List.eq_of_perm_of_sorted h hx hy

theorem sortLv_congr {xs ys : List Nat} (h : xs.Perm ys) : sortLv xs = sortLv ys :=
  sorted_unique ((sortLv_perm xs).trans (h.trans (sortLv_perm ys).symm))
    (sortLv_sorted xs) (sortLv_sorted ys)

theorem sortLv_append_of_le (A B : List Nat) (hAB : ∀ a ∈ A, ∀ b ∈ B, a ≤ b) :
    sortLv (A ++ B) = sortLv A ++ sortLv B := by
  apply sorted_unique
  · exact (sortLv_perm (A ++ B)).trans
      (((sortLv_perm A).symm.append ((sortLv_perm B).symm)))
  · exact sortLv_sorted (A ++ B)
  · refine List.pairwise_append.mpr ⟨sortLv_sorted A, sortLv_sorted B, ?_⟩
    intro a ha b hb
    exact hAB a ((sortLv_perm A).mem_iff.mp ha) b ((sortLv_perm B).mem_iff.mp hb)

theorem sortLv_headD_eq {xs : List Nat} {m : Nat} (hmem : m ∈ xs)
    (hmin : ∀ a ∈ xs, m ≤ a) : (sortLv xs).headD 0 = m := by
  have hne : sortLv xs ≠ [] := by
    intro hnil
    have := (sortLv_perm xs).symm.mem_iff.mp hmem
    rw [hnil] at this
    exact absurd this (List.not_mem_nil m)
  obtain ⟨a, t, hat⟩ := List.exists_cons_of_ne_nil hne
  have hsorted := sortLv_sorted xs
  rw [hat] at hsorted
  have hma : m = a ∨ m ∈ t := by
    have := (sortLv_perm xs).symm.mem_iff.mp hmem
    rw [hat] at this
    exact List.mem_cons.mp this
  have ham : a ∈ xs := by
    have : a ∈ sortLv xs := by rw [hat]; exact List.mem_cons_self a t
    exact (sortLv_perm xs).mem_iff.mp this
  have h1 : m ≤ a := hmin a ham
  have h2 : a ≤ m := by
    rcases hma with rfl | hmt
    · exact le_refl m
    · exact (List.pairwise_cons.mp hsorted).1 m hmt
  rw [hat]
  simp [List.headD]
  omega

theorem sorted_headD_min {l : List Nat} (hs : List.Sorted (· ≤ ·) l) (hne : l ≠ []) :
    l.headD 0 ∈ l ∧ ∀ x ∈ l, l.headD 0 ≤ x := by
  obtain ⟨a, t, rfl⟩ := List.exists_cons_of_ne_nil hne
  refine ⟨List.mem_cons_self a t, ?_⟩
  intro x hx
  rcases List.mem_cons.mp hx with rfl | hxt
  · exact le_refl _
  · exact (List.pairwise_cons.mp hs).1 x hxt

/-! ### The top-selection predicate and its laws -/

theorem IsTopSel.sortLv_eq {sel base : List Nat} {k : Nat} (h : IsTopSel sel base k) :
    sortLv sel = naiveTopLevels base k := by
  obtain ⟨hlen, rest, hperm, hcross⟩ := h
  have h1 : sortLv base = sortLv rest ++ sortLv sel := by
    rw [← sortLv_append_of_le rest sel (fun a ha b hb => hcross a ha b hb)]
    exact (sortLv_congr (List.perm_append_comm.trans hperm)).symm
  have hblen : base.length = sel.length + rest.length := by
    have := hperm.length_eq
    simp only [List.length_append] at this
    omega
  unfold naiveTopLevels
  rw [h1]
  have hrlen : (sortLv rest).length = rest.length := sortLv_length rest
  rw [show base.length - k = (sortLv rest).length by omega]
  exact (List.drop_left _ _).symm

theorem IsTopSel.self (xs : List Nat) : IsTopSel xs xs xs.length :=
  ⟨rfl, [], by simp, by simp⟩

theorem IsTopSel.perm_sel {sel sel' base : List Nat} {k : Nat} (hp : sel.Perm sel')
    (h : IsTopSel sel base k) : IsTopSel sel' base k := by
  obtain ⟨hlen, rest, hperm, hcross⟩ := h
  exact ⟨hp.length_eq ▸ hlen, rest, (hp.symm.append_right rest).trans hperm,
    fun b hb a ha => hcross b hb a (hp.mem_iff.mpr ha)⟩

theorem IsTopSel.perm_base {sel base base' : List Nat} {k : Nat} (hp : base.Perm base')
    (h : IsTopSel sel base k) : IsTopSel sel base' k := by
  obtain ⟨hlen, rest, hperm, hcross⟩ := h
  exact ⟨hlen, rest, hperm.trans hp, hcross⟩

theorem IsTopSel.step {sel base : List Nat} {k : Nat} (h : IsTopSel sel base k)
    (m p : Nat) (hm : m ∈ sel) (hmin : ∀ a ∈ sel, m ≤ a) :
    IsTopSel (if m < p then p :: sel.erase m else sel) (p :: base) k := by
  obtain ⟨hlen, rest, hperm, hcross⟩ := h
  have hpos : 0 < sel.length := List.length_pos.mpr (List.ne_nil_of_mem hm)
  by_cases hmp : m < p
  · rw [if_pos hmp]
    refine ⟨?_, m :: rest, ?_, ?_⟩
    · simp only [List.length_cons, List.length_erase_of_mem hm]
      omega
    · have step1 : (sel.erase m ++ m :: rest).Perm (sel ++ rest) :=
        List.perm_middle.trans ((List.perm_cons_erase hm).symm.append_right rest)
      exact List.Perm.cons p (step1.trans hperm)
    · intro b hb a ha
      rcases List.mem_cons.mp hb with rfl | hbr
      · rcases List.mem_cons.mp ha with rfl | hae
        · omega
        · exact hmin a (List.mem_of_mem_erase hae)
      · rcases List.mem_cons.mp ha with rfl | hae
        · have : b ≤ m := hcross b hbr m hm
          omega
        · exact hcross b hbr a (List.mem_of_mem_erase hae)
  · rw [if_neg hmp]
    refine ⟨hlen, p :: rest, ?_, ?_⟩
    · exact List.perm_middle.trans (List.Perm.cons p hperm)
    · intro b hb a ha
      rcases List.mem_cons.mp hb with rfl | hbr
      · have : b ≤ m := by omega
        exact le_trans this (hmin a ha)
      · exact hcross b hbr a ha

/-! ### Player-level sorting and heap-root facts -/

theorem sortPlayers_perm (l : List Player) : (sortPlayers l).Perm l :=
  List.mergeSort_perm l _

theorem sortPlayers_length (l : List Player) : (sortPlayers l).length = l.length :=
  (sortPlayers_perm l).length_eq

theorem sortPlayers_sorted (l : List Player) : List.Sorted LevelLE (sortPlayers l) := by
  have h := @List.sorted_mergeSort Player (fun a b => decide (a.level_ ≤ b.level_))
    (fun a b c hab hbc => by simp only [decide_eq_true_eq] at *; omega)
    (fun a b => by simp only [Bool.or_eq_true, decide_eq_true_eq]; omega) l
  exact h.imp (fun hab => by simpa [LevelLE] using hab)

theorem levels_length (l : List Player) : (levels l).length = l.length := by
  simp [levels]

theorem levels_perm {l l' : List Player} (h : l.Perm l') : (levels l).Perm (levels l') :=
  h.map _

theorem levels_append (l l' : List Player) : levels (l ++ l') = levels l ++ levels l' := by
  simp [levels]

theorem levels_sorted {l : List Player} (h : List.Sorted LevelLE l) :
    List.Sorted (· ≤ ·) (levels l) := by
  unfold levels
  exact List.pairwise_map.mpr h

theorem mem_levels_iff {x : Nat} {l : List Player} :
    x ∈ levels l ↔ ∃ p ∈ l, p.level_ = x := by
  simp [levels]

theorem lvAt_mem_levels {l : List Player} {i : Nat} (h : i < l.length) :
    lvAt l i ∈ levels l := by
  unfold lvAt
  rw [List.getD_eq_getElem l default h]
  exact mem_levels_iff.mpr ⟨l[i], List.getElem_mem h, rfl⟩

theorem levels_forall_lvAt {l : List Player} {x : Nat} (hx : x ∈ levels l) :
    ∃ i, ∃ h : i < l.length, lvAt l i = x := by
  obtain ⟨p, hp, rfl⟩ := mem_levels_iff.mp hx
  obtain ⟨i, hi, rfl⟩ := List.mem_iff_getElem.mp hp
  exact ⟨i, hi, by unfold lvAt; rw [List.getD_eq_getElem l default hi]⟩

theorem minHeap_root_le {l : List Player} (h : IsMinHeapL l) :
    ∀ j, j < l.length → lvAt l 0 ≤ lvAt l j := by
  intro j
  induction j using Nat.strong_induction_on with
  | _ j ih =>
    intro hj
    rcases Nat.eq_zero_or_pos j with rfl | h0
    · exact le_refl _
    · have hparent : (j - 1) / 2 < j := by omega
      exact le_trans (ih _ hparent (lt_trans hparent hj)) (h j hj h0)

theorem minHeap_root_min {l : List Player} (h : IsMinHeapL l) (hne : l ≠ []) :
    lvAt l 0 ∈ levels l ∧ ∀ x ∈ levels l, lvAt l 0 ≤ x := by
  have hlen : 0 < l.length := List.length_pos.mpr hne
  refine ⟨lvAt_mem_levels hlen, ?_⟩
  intro x hx
  obtain ⟨i, hi, rfl⟩ := levels_forall_lvAt hx
  exact minHeap_root_le h i hi

theorem maxHeap_le_root {l : List Player} {m : Nat} (h : MaxHeapUpTo l m) :
    ∀ j, j < m → lvAt l j ≤ lvAt l 0 := by
  intro j
  induction j using Nat.strong_induction_on with
  | _ j ih =>
    intro hj
    rcases Nat.eq_zero_or_pos j with rfl | h0
    · exact le_refl _
    · have hparent : (j - 1) / 2 < j := by omega
      exact le_trans (h j hj h0) (ih _ hparent (lt_trans hparent hj))

/-! ### The swap and percolate-down primitives -/

theorem swapAt2_length (l : List Player) (i j : Nat) :
    (swapAt2 l i j).length = l.length := by
  simp [swapAt2]

theorem lvAt_swapAt2 (l : List Player) (i j m : Nat) (hi : i < l.length)
    (hj : j < l.length) :
    lvAt (swapAt2 l i j) m =
      if m = j then lvAt l i else if m = i then lvAt l j else lvAt l m := by
  unfold lvAt swapAt2
  rw [List.getD_eq_getElem?_getD, List.getElem?_set]
  by_cases hjm : j = m
  · subst hjm
    rw [if_pos rfl, if_pos (by simpa using hj), if_pos rfl]
    simp [List.getD_eq_getElem?_getD]
  · rw [if_neg hjm, List.getElem?_set, if_neg (fun hmj : m = j => hjm hmj.symm)]
    by_cases him : i = m
    · subst him
      rw [if_pos rfl, if_pos hi, if_pos rfl]
      simp [List.getD_eq_getElem?_getD]
    · rw [if_neg him, if_neg (fun hmi : m = i => him hmi.symm)]
      simp [List.getD_eq_getElem?_getD]

theorem swapAt2_perm (l : List Player) (i j : Nat) (hi : i < l.length)
    (hj : j < l.length) : (swapAt2 l i j).Perm l := by
  rw [List.perm_iff_count]
  intro a
  unfold swapAt2
  have hlen1 : j < (l.set i (l.getD j default)).length := by simpa using hj
  rw [List.count_set _ _ _ _ hlen1, List.count_set _ _ _ _ hi]
  have hxi : l.getD i default = l[i] := List.getD_eq_getElem l default hi
  have hxj : l.getD j default = l[j] := List.getD_eq_getElem l default hj
  have hgj : (l.set i (l.getD j default))[j] = l[j] := by
    rw [List.getElem_set]
    by_cases hij : i = j
    · rw [if_pos hij, hxj]
    · rw [if_neg hij]
  rw [hgj, hxi, hxj]
  have hci : l[i] = a → 0 < List.count a l := fun h =>
    List.count_pos_iff.mpr (h ▸ List.getElem_mem hi)
  have hcj : l[j] = a → 0 < List.count a l := fun h =>
    List.count_pos_iff.mpr (h ▸ List.getElem_mem hj)
  simp only [beq_iff_eq]
  split_ifs <;>
    first
      | omega
      | (have h9 := hci (by assumption)
         omega)

theorem smallestIdx_cases (l : List Player) (i : Nat) :
    smallestIdx l i = i ∨
    ((smallestIdx l i = 2 * i + 1 ∨ smallestIdx l i = 2 * i + 2) ∧
      smallestIdx l i < l.length) := by
  unfold smallestIdx smallestAfterLeft
  split_ifs <;> omega

theorem smallestIdx_le_left (l : List Player) (i : Nat) (h : 2 * i + 1 < l.length) :
    lvAt l (smallestIdx l i) ≤ lvAt l (2 * i + 1) := by
  unfold smallestIdx smallestAfterLeft
  split_ifs <;> omega

theorem smallestIdx_le_right (l : List Player) (i : Nat) (h : 2 * i + 2 < l.length) :
    lvAt l (smallestIdx l i) ≤ lvAt l (2 * i + 2) := by
  unfold smallestIdx smallestAfterLeft
  split_ifs <;> omega

theorem smallestIdx_eq_self (l : List Player) (i : Nat) (h : smallestIdx l i = i) :
    (2 * i + 1 < l.length → lvAt l i ≤ lvAt l (2 * i + 1)) ∧
    (2 * i + 2 < l.length → lvAt l i ≤ lvAt l (2 * i + 2)) := by
  unfold smallestIdx smallestAfterLeft at h
  split_ifs at h <;> omega

theorem smallestIdx_lt_self (l : List Player) (i : Nat) (h : smallestIdx l i ≠ i) :
    lvAt l (smallestIdx l i) < lvAt l i := by
  unfold smallestIdx smallestAfterLeft at h ⊢
  split_ifs at h ⊢ <;> omega

/-- Percolating down from an almost-heap position restores the full min-heap
property while permuting the buffer. -/
theorem percDown_spec (l : List Player) (i : Nat) (h : AlmostMinHeapAt l i) :
    IsMinHeapL (percDown l i) ∧ (percDown l i).Perm l := by
  by_cases hEq : smallestIdx l i = i
  · rw [percDown.eq_def, dif_pos hEq]
    refine ⟨?_, List.Perm.refl l⟩
    intro j hj h0
    by_cases hp : (j - 1) / 2 = i
    · have hchild : j = 2 * i + 1 ∨ j = 2 * i + 2 := by omega
      have hb := smallestIdx_eq_self l i hEq
      rw [hp]
      rcases hchild with rfl | rfl
      · exact hb.1 hj
      · exact hb.2 hj
    · exact h.1 j hj h0 hp
  · rw [percDown.eq_def, dif_neg hEq]
    rcases smallestIdx_cases l i with hc | ⟨hchild, hsn⟩
    · exact absurd hc hEq
    have hin : i < l.length := by omega
    have hlt : lvAt l (smallestIdx l i) < lvAt l i := smallestIdx_lt_self l i hEq
    have hlv : ∀ m, lvAt (swapAt2 l i (smallestIdx l i)) m =
        if m = smallestIdx l i then lvAt l i
        else if m = i then lvAt l (smallestIdx l i) else lvAt l m :=
      fun m => lvAt_swapAt2 l i (smallestIdx l i) m hin hsn
    have hlen : (swapAt2 l i (smallestIdx l i)).length = l.length :=
      swapAt2_length l i (smallestIdx l i)
    have hA' : AlmostMinHeapAt (swapAt2 l i (smallestIdx l i)) (smallestIdx l i) := by
      constructor
      · intro j hj h0 hps
        rw [hlen] at hj
        by_cases hpi : (j - 1) / 2 = i
        · have hchildj : j = 2 * i + 1 ∨ j = 2 * i + 2 := by omega
          rw [hlv ((j - 1) / 2), if_neg hps, if_pos hpi]
          by_cases hjs : j = smallestIdx l i
          · rw [hlv j, if_pos hjs]
            omega
          · rw [hlv j, if_neg hjs, if_neg (by omega)]
            rcases hchildj with rfl | rfl
            · exact smallestIdx_le_left l i hj
            · exact smallestIdx_le_right l i hj
        · by_cases hji : j = i
          · rw [hlv ((j - 1) / 2), if_neg hps, if_neg hpi,
              hlv j, if_neg (by omega), if_pos hji]
            have h0i : 0 < i := by omega
            have h2 := h.2 h0i (smallestIdx l i) hsn (by omega) (by omega)
            rw [show (j - 1) / 2 = (i - 1) / 2 by omega]
            exact h2
          · by_cases hjs : j = smallestIdx l i
            · exact absurd hpi (by omega)
            · rw [hlv ((j - 1) / 2), if_neg hps, if_neg hpi,
                hlv j, if_neg hjs, if_neg hji]
              exact h.1 j hj h0 hpi
      · intro h0s j hj h0 hpj
        rw [hlen] at hj
        rw [hlv ((smallestIdx l i - 1) / 2), if_neg (by omega), if_pos (by omega),
          hlv j, if_neg (by omega), if_neg (by omega)]
        have := h.1 j hj h0 (by omega)
        rw [show (j - 1) / 2 = smallestIdx l i by omega] at this
        exact this
    have ih := percDown_spec (swapAt2 l i (smallestIdx l i)) (smallestIdx l i) hA'
    exact ⟨ih.1, ih.2.trans (swapAt2_perm l i (smallestIdx l i) hin hsn)⟩
termination_by l.length - i
decreasing_by
  rw [hlen]
  omega

/-- Core specification of `Online::replaceMin` on a nonempty min-heap: the heap
property is restored and the multiset becomes the old one with the root
replaced by `target`. -/
theorem replaceMin_spec (heap : List Player) (target : Player) (hne : heap ≠ [])
    (hheap : IsMinHeapL heap) :
    IsMinHeapL (Online.replaceMin heap target).1 ∧
    (Online.replaceMin heap target).1.Perm (target :: heap.tail) := by
  obtain ⟨a, t, rfl⟩ := List.exists_cons_of_ne_nil hne
  unfold Online.replaceMin
  rw [if_neg (by simp)]
  have hset : (a :: t).set 0 target = target :: t := rfl
  simp only [hset]
  have hlv : ∀ m, 0 < m → lvAt (target :: t) m = lvAt (a :: t) m := by
    intro m hm
    obtain ⟨m', rfl⟩ := Nat.exists_eq_add_of_lt hm
    rfl
  have hA : AlmostMinHeapAt (target :: t) 0 := by
    constructor
    · intro j hj h0 hp
      rw [hlv _ (by omega), hlv _ h0]
      exact hheap j (by simpa using hj) h0
    · intro h0
      exact absurd h0 (lt_irrefl 0)
  have hres := percDown_spec (target :: t) 0 hA
  exact ⟨hres.1, hres.2⟩

theorem percDown_length (l : List Player) (i : Nat) :
    (percDown l i).length = l.length := by
  by_cases hEq : smallestIdx l i = i
  · rw [percDown.eq_def, dif_pos hEq]
  · rw [percDown.eq_def, dif_neg hEq]
    rw [percDown_length (swapAt2 l i (smallestIdx l i)) (smallestIdx l i)]
    exact swapAt2_length l i (smallestIdx l i)
termination_by l.length - i
decreasing_by
  rw [swapAt2_length]
  rcases smallestIdx_cases l i with hc | ⟨hchild, hsn⟩
  · exact absurd hc hEq
  · omega

theorem replaceMin_length (heap : List Player) (target : Player) :
    (Online.replaceMin heap target).1.length = heap.length := by
  unfold Online.replaceMin
  by_cases h : heap.length = 0
  · rw [if_pos h]
  · rw [if_neg h]
    rw [show (percDown (heap.set 0 target) 0, (none : Option Player)).1 =
      percDown (heap.set 0 target) 0 from rfl]
    rw [percDown_length]
    simp

/-! ### Offline selectors -/

theorem topCount_le (n : Nat) : (n + 9) / 10 ≤ n := by omega

theorem sorted_top_of_topSel (sel base : List Player) (k : Nat)
    (h : IsTopSel (levels sel) (levels base) k) :
    (sortPlayers sel).length = k ∧ List.Sorted LevelLE (sortPlayers sel) ∧
    (levels (sortPlayers sel)).Perm (naiveTopLevels (levels base) k) := by
  refine ⟨?_, sortPlayers_sorted sel, ?_⟩
  · rw [sortPlayers_length]
    have h1 := h.1
    rwa [levels_length] at h1
  · have h1 : (levels (sortPlayers sel)).Perm (levels sel) :=
      levels_perm (sortPlayers_perm sel)
    have h2 : (levels sel).Perm (sortLv (levels sel)) := (sortLv_perm _).symm
    rw [IsTopSel.sortLv_eq h] at h2
    exact h1.trans h2

theorem quickSelect_topSel (orig mid : List Player)
    (h : Offline.NthElementPost orig mid (orig.length - (orig.length + 9) / 10)) :
    IsTopSel (levels (mid.drop (mid.length - (mid.length + 9) / 10)))
      (levels orig) ((orig.length + 9) / 10) := by
  obtain ⟨hperm, hcross⟩ := h
  have hlen : mid.length = orig.length := hperm.length_eq
  have hk : (orig.length + 9) / 10 ≤ orig.length := topCount_le orig.length
  rw [hlen]
  refine ⟨?_, levels (mid.take (orig.length - (orig.length + 9) / 10)), ?_, ?_⟩
  · rw [levels_length, List.length_drop, hlen]
    omega
  · rw [← levels_append]
    refine (levels_perm ?_).trans (levels_perm hperm)
    exact List.perm_append_comm.trans
      (by rw [List.take_append_drop])
  · intro b hb a ha
    obtain ⟨pb, hpb, rfl⟩ := mem_levels_iff.mp hb
    obtain ⟨pa, hpa, rfl⟩ := mem_levels_iff.mp ha
    exact hcross pb hpb pa hpa

theorem quickSelectRank_spec (orig mid : List Player)
    (h : Offline.NthElementPost orig mid (orig.length - (orig.length + 9) / 10)) :
    (Offline.quickSelectRank mid).top_.length = (orig.length + 9) / 10 ∧
    List.Sorted LevelLE (Offline.quickSelectRank mid).top_ ∧
    (levels (Offline.quickSelectRank mid).top_).Perm
      (naiveTopLevels (levels orig) ((orig.length + 9) / 10)) ∧
    (Offline.quickSelectRank mid).cutoffs_ = [] := by
  have hsel := quickSelect_topSel orig mid h
  have hmain := sorted_top_of_topSel _ orig _ hsel
  exact ⟨hmain.1, hmain.2.1, hmain.2.2, rfl⟩

/-- Loop invariant for the pop phase of `Offline::heapRank`: after `i` pops the
buffer is still a permutation of the original, its first `n - i` entries form a
max-heap dominated by the already-extracted suffix, and the extracted list is
exactly that suffix reversed. -/
theorem popTrace_invariant (h0 : List Player) (states : List (List Player)) (k : Nat)
    (hmax : MaxHeapUpTo h0 h0.length)
    (htrace : Offline.PopHeapTrace h0 states k) (hk : k ≤ h0.length) :
    ∀ i, i ≤ k →
      ((h0 :: states).getD i []).length = h0.length ∧
      ((h0 :: states).getD i []).Perm h0 ∧
      MaxHeapUpTo ((h0 :: states).getD i []) (h0.length - i) ∧
      Offline.heapExtract states h0.length i =
        (((h0 :: states).getD i []).drop (h0.length - i)).reverse ∧
      (∀ a ∈ ((h0 :: states).getD i []).take (h0.length - i),
        ∀ b ∈ ((h0 :: states).getD i []).drop (h0.length - i), a.level_ ≤ b.level_) := by
  intro i
  induction i with
  | zero =>
    intro _
    refine ⟨rfl, List.Perm.refl h0, by simpa using hmax, ?_, ?_⟩
    · show Offline.heapExtract states h0.length 0 = (h0.drop (h0.length - 0)).reverse
      rw [show h0.length - 0 = h0.length by omega, List.drop_length]
      simp [Offline.heapExtract]
    · intro a ha b hb
      have hb2 : b ∈ List.drop h0.length h0 := by
        rw [show h0.length - 0 = h0.length by omega] at hb
        exact hb
      rw [List.drop_length] at hb2
      exact absurd hb2 (List.not_mem_nil b)
  | succ i ih =>
    intro hik
    obtain ⟨hlen1, hperm1, hheap1, hext1, hcross1⟩ := ih (by omega)
    obtain ⟨hlen2, hpermtake, hdropeq, hroot, hheap2⟩ := htrace.2 i (by omega)
    have hcur : (h0 :: states).getD (i + 1) [] = states.getD i [] := rfl
    rw [hcur]
    have hlenafter : (states.getD i []).length = h0.length := hlen2.trans hlen1
    have hm1 : 1 ≤ h0.length - i := by omega
    have hpermafter : (states.getD i []).Perm ((h0 :: states).getD i []) := by
      have e1 : states.getD i [] =
          (states.getD i []).take (h0.length - i) ++
            (states.getD i []).drop (h0.length - i) := (List.take_append_drop _ _).symm
      rw [hdropeq] at e1
      rw [e1]
      exact (hpermtake.append_right _).trans (by rw [List.take_append_drop])
    have hm1lt : h0.length - i - 1 < (states.getD i []).length := by omega
    have hdrop_succ : (states.getD i []).drop (h0.length - (i + 1)) =
        ((states.getD i [])[h0.length - i - 1]) ::
          (states.getD i []).drop (h0.length - i) := by
      rw [show h0.length - (i + 1) = h0.length - i - 1 by omega]
      rw [List.drop_eq_getElem_cons hm1lt]
      rw [show h0.length - i - 1 + 1 = h0.length - i by omega]
    refine ⟨hlenafter, hpermafter.trans hperm1, ?_, ?_, ?_⟩
    · rw [show h0.length - (i + 1) = h0.length - i - 1 by omega]
      exact hheap2
    · have hexstep : Offline.heapExtract states h0.length (i + 1) =
          Offline.heapExtract states h0.length i ++
            [(states.getD i []).getD (h0.length - 1 - i) default] := by
        unfold Offline.heapExtract
        rw [List.range_succ, List.map_append]
        rfl
      rw [hexstep, hext1, hdrop_succ, List.reverse_cons, hdropeq]
      congr 1
      rw [show h0.length - 1 - i = h0.length - i - 1 by omega]
      rw [List.getD_eq_getElem _ default hm1lt]
    · intro a ha b hb
      have ha2 : a ∈ (states.getD i []).take (h0.length - i) := by
        have htt : (states.getD i []).take (h0.length - (i + 1)) =
            ((states.getD i []).take (h0.length - i)).take (h0.length - (i + 1)) := by
          rw [List.take_take]
          congr 1
          omega
        rw [htt] at ha
        exact List.mem_of_mem_take ha
      have ha3 : a ∈ ((h0 :: states).getD i []).take (h0.length - i) :=
        hpermtake.mem_iff.mp ha2
      rw [hdrop_succ] at hb
      rcases List.mem_cons.mp hb with rfl | hb2
      · obtain ⟨jx, hjx, hjval⟩ := List.mem_take_iff_getElem.mp ha3
        have hjxm : jx < h0.length - i := by omega
        have hroot2 := maxHeap_le_root hheap1 jx hjxm
        have hjlen : jx < ((h0 :: states).getD i []).length := by omega
        have hva : lvAt ((h0 :: states).getD i []) jx = a.level_ := by
          unfold lvAt
          rw [List.getD_eq_getElem _ default hjlen, hjval]
        have hvb : ((states.getD i [])[h0.length - i - 1]).level_ =
            lvAt ((h0 :: states).getD i []) 0 := by
          rw [← List.getD_eq_getElem _ default hm1lt, hroot]
          rfl
        rw [← hva, hvb]
        exact hroot2
      · rw [hdropeq] at hb2
        exact hcross1 a ha3 b hb2

theorem heapRank_spec (players h0 : List Player) (states : List (List Player))
    (hperm : h0.Perm players) (hmax : MaxHeapUpTo h0 h0.length)
    (htrace : Offline.PopHeapTrace h0 states ((h0.length + 9) / 10)) :
    (Offline.heapRank h0 states).top_.length = (players.length + 9) / 10 ∧
    List.Sorted LevelLE (Offline.heapRank h0 states).top_ ∧
    (levels (Offline.heapRank h0 states).top_).Perm
      (naiveTopLevels (levels players) ((players.length + 9) / 10)) ∧
    (Offline.heapRank h0 states).cutoffs_ = [] := by
  have hlen : h0.length = players.length := hperm.length_eq
  have hk : (h0.length + 9) / 10 ≤ h0.length := topCount_le _
  obtain ⟨hlenk, hpermk, hheapk, hextk, hcrossk⟩ :=
    popTrace_invariant h0 states ((h0.length + 9) / 10) hmax htrace hk
      ((h0.length + 9) / 10) (le_refl _)
  have hsel : IsTopSel
      (levels (Offline.heapExtract states h0.length ((h0.length + 9) / 10)))
      (levels players) ((h0.length + 9) / 10) := by
    rw [hextk]
    refine ⟨?_, levels (((h0 :: states).getD ((h0.length + 9) / 10) []).take
      (h0.length - (h0.length + 9) / 10)), ?_, ?_⟩
    · rw [levels_length, List.length_reverse, List.length_drop, hlenk]
      omega
    · rw [← levels_append]
      have hxc : (((((h0 :: states).getD ((h0.length + 9) / 10) []).drop
            (h0.length - (h0.length + 9) / 10)).reverse ++
          (((h0 :: states).getD ((h0.length + 9) / 10) []).take
            (h0.length - (h0.length + 9) / 10)))).Perm
          ((h0 :: states).getD ((h0.length + 9) / 10) []) := by
        refine ((List.reverse_perm _).append_right _).trans ?_
        exact List.perm_append_comm.trans (by rw [List.take_append_drop])
      exact (levels_perm hxc).trans ((levels_perm hpermk).trans (levels_perm hperm))
    · intro b hb a ha
      obtain ⟨pb, hpb, rfl⟩ := mem_levels_iff.mp hb
      obtain ⟨pa, hpa, rfl⟩ := mem_levels_iff.mp ha
      rw [List.mem_reverse] at hpa
      exact hcrossk pb hpb pa hpa
  have hmain := sorted_top_of_topSel _ players _ hsel
  have htop : (Offline.heapRank h0 states).top_ =
      sortPlayers (Offline.heapExtract states h0.length ((h0.length + 9) / 10)) := rfl
  have hcut : (Offline.heapRank h0 states).cutoffs_ = [] := rfl
  rw [← hlen, htop, hcut]
  exact ⟨hmain.1, hmain.2.1, hmain.2.2, rfl⟩

/-- C1: for every input vector of N players, each of Offline::quickSelectRank
and Offline::heapRank (run under the C++ standard contracts of the
`std::nth_element` resp. `std::make_heap`/`std::pop_heap` calls they make)
returns a result whose `top_` has length `(N + 9) / 10`, is sorted ascending by
level, and whose multiset of levels equals the multiset of the `ceil(N/10)`
largest levels of the input as computed by a naive full sort. -/
theorem claim_C1 (players mid h0 : List Player) (states : List (List Player))
    (hmid : Offline.NthElementPost players mid
      (players.length - (players.length + 9) / 10))
    (hperm : h0.Perm players) (hmax : MaxHeapUpTo h0 h0.length)
    (htrace : Offline.PopHeapTrace h0 states ((h0.length + 9) / 10)) :
    ((Offline.quickSelectRank mid).top_.length = (players.length + 9) / 10 ∧
      List.Sorted LevelLE (Offline.quickSelectRank mid).top_ ∧
      (levels (Offline.quickSelectRank mid).top_).Perm
        (naiveTopLevels (levels players) ((players.length + 9) / 10))) ∧
    ((Offline.heapRank h0 states).top_.length = (players.length + 9) / 10 ∧
      List.Sorted LevelLE (Offline.heapRank h0 states).top_ ∧
      (levels (Offline.heapRank h0 states).top_).Perm
        (naiveTopLevels (levels players) ((players.length + 9) / 10))) := by
  have hq := quickSelectRank_spec players mid hmid
  have hh := heapRank_spec players h0 states hperm hmax htrace
  exact ⟨⟨hq.1, hq.2.1, hq.2.2.1⟩, ⟨hh.1, hh.2.1, hh.2.2.1⟩⟩

/-- Witness for C1 at a concrete three-player input: `mid` realises the
`std::nth_element` contract, `h0` a max-heap arrangement, and the one-element
trace realises the `std::pop_heap` contract. -/
theorem claim_C1_witness :
    ((Offline.quickSelectRank [⟨"b", 1⟩, ⟨"c", 2⟩, ⟨"a", 3⟩]).top_.length = 1 ∧
      List.Sorted LevelLE (Offline.quickSelectRank [⟨"b", 1⟩, ⟨"c", 2⟩, ⟨"a", 3⟩]).top_ ∧
      (levels (Offline.quickSelectRank [⟨"b", 1⟩, ⟨"c", 2⟩, ⟨"a", 3⟩]).top_).Perm
        (naiveTopLevels (levels [⟨"a", 3⟩, ⟨"b", 1⟩, ⟨"c", 2⟩]) 1)) ∧
    ((Offline.heapRank [⟨"a", 3⟩, ⟨"b", 1⟩, ⟨"c", 2⟩]
        [[⟨"c", 2⟩, ⟨"b", 1⟩, ⟨"a", 3⟩]]).top_.length = 1 ∧
      List.Sorted LevelLE (Offline.heapRank [⟨"a", 3⟩, ⟨"b", 1⟩, ⟨"c", 2⟩]
        [[⟨"c", 2⟩, ⟨"b", 1⟩, ⟨"a", 3⟩]]).top_ ∧
      (levels (Offline.heapRank [⟨"a", 3⟩, ⟨"b", 1⟩, ⟨"c", 2⟩]
          [[⟨"c", 2⟩, ⟨"b", 1⟩, ⟨"a", 3⟩]]).top_).Perm
        (naiveTopLevels (levels [⟨"a", 3⟩, ⟨"b", 1⟩, ⟨"c", 2⟩]) 1)) :=
  claim_C1 [⟨"a", 3⟩, ⟨"b", 1⟩, ⟨"c", 2⟩] [⟨"b", 1⟩, ⟨"c", 2⟩, ⟨"a", 3⟩]
    [⟨"a", 3⟩, ⟨"b", 1⟩, ⟨"c", 2⟩] [[⟨"c", 2⟩, ⟨"b", 1⟩, ⟨"a", 3⟩]]
    (by decide) (by decide) (by decide) (by decide)

/-- C5: on the same input (under the same library-call contracts), the partition
selector and the heap selector produce `top_` sequences whose level multisets
are identical, and — both being sorted ascending — whose level sequences are
identical. -/
theorem claim_C5 (players mid h0 : List Player) (states : List (List Player))
    (hmid : Offline.NthElementPost players mid
      (players.length - (players.length + 9) / 10))
    (hperm : h0.Perm players) (hmax : MaxHeapUpTo h0 h0.length)
    (htrace : Offline.PopHeapTrace h0 states ((h0.length + 9) / 10)) :
    (levels (Offline.quickSelectRank mid).top_).Perm
      (levels (Offline.heapRank h0 states).top_) ∧
    levels (Offline.quickSelectRank mid).top_ =
      levels (Offline.heapRank h0 states).top_ := by
  have hq := quickSelectRank_spec players mid hmid
  have hh := heapRank_spec players h0 states hperm hmax htrace
  have hp : (levels (Offline.quickSelectRank mid).top_).Perm
      (levels (Offline.heapRank h0 states).top_) :=
    hq.2.2.1.trans hh.2.2.1.symm
  exact ⟨hp, sorted_unique hp (levels_sorted hq.2.1) (levels_sorted hh.2.1)⟩

/-- Witness for C5 at the same concrete input as the C1 witness. -/
theorem claim_C5_witness :
    (levels (Offline.quickSelectRank [⟨"b", 1⟩, ⟨"c", 2⟩, ⟨"a", 3⟩]).top_).Perm
      (levels (Offline.heapRank [⟨"a", 3⟩, ⟨"b", 1⟩, ⟨"c", 2⟩]
        [[⟨"c", 2⟩, ⟨"b", 1⟩, ⟨"a", 3⟩]]).top_) ∧
    levels (Offline.quickSelectRank [⟨"b", 1⟩, ⟨"c", 2⟩, ⟨"a", 3⟩]).top_ =
      levels (Offline.heapRank [⟨"a", 3⟩, ⟨"b", 1⟩, ⟨"c", 2⟩]
        [[⟨"c", 2⟩, ⟨"b", 1⟩, ⟨"a", 3⟩]]).top_ :=
  claim_C5 [⟨"a", 3⟩, ⟨"b", 1⟩, ⟨"c", 2⟩] [⟨"b", 1⟩, ⟨"c", 2⟩, ⟨"a", 3⟩]
    [⟨"a", 3⟩, ⟨"b", 1⟩, ⟨"c", 2⟩] [[⟨"c", 2⟩, ⟨"b", 1⟩, ⟨"a", 3⟩]]
    (by decide) (by decide) (by decide) (by decide)

/-- C6: `Online::replaceMin` on a nonempty min-heap range restores the min-heap
property, and the resulting multiset is the original with its root — a minimum
element, as the third conjunct states — removed and the original `target`
inserted. -/
theorem claim_C6 (heap : List Player) (target : Player) (hne : heap ≠ [])
    (hheap : IsMinHeapL heap) :
    IsMinHeapL (Online.replaceMin heap target).1 ∧
    (Online.replaceMin heap target).1.Perm (target :: heap.tail) ∧
    (∀ j, j < heap.length → lvAt heap 0 ≤ lvAt heap j) := by
  have h := replaceMin_spec heap target hne hheap
  exact ⟨h.1, h.2, minHeap_root_le hheap⟩

/-- Witness for C6 on a concrete three-element min-heap. -/
theorem claim_C6_witness :
    IsMinHeapL (Online.replaceMin [⟨"a", 1⟩, ⟨"b", 3⟩, ⟨"c", 2⟩] ⟨"t", 5⟩).1 ∧
    (Online.replaceMin [⟨"a", 1⟩, ⟨"b", 3⟩, ⟨"c", 2⟩] ⟨"t", 5⟩).1.Perm
      [⟨"t", 5⟩, ⟨"b", 3⟩, ⟨"c", 2⟩] ∧
    (∀ j, j < ([⟨"a", 1⟩, ⟨"b", 3⟩, ⟨"c", 2⟩] : List Player).length →
      lvAt [⟨"a", 1⟩, ⟨"b", 3⟩, ⟨"c", 2⟩] 0 ≤ lvAt [⟨"a", 1⟩, ⟨"b", 3⟩, ⟨"c", 2⟩] j) :=
  claim_C6 [⟨"a", 1⟩, ⟨"b", 3⟩, ⟨"c", 2⟩] ⟨"t", 5⟩ (by decide) (by decide)

/-- C10: `Online::replaceMin` on an empty range returns immediately through the
`heapSize == 0` early return: the (empty) buffer is unchanged and the
by-reference `target` is untouched. -/
theorem claim_C10 (heap : List Player) (target : Player) (hlen : heap.length = 0) :
    Online.replaceMin heap target = (heap, some target) := by
  unfold Online.replaceMin
  rw [if_pos hlen]

/-- Witness for C10 on the empty range. -/
theorem claim_C10_witness :
    Online.replaceMin [] ⟨"t", 7⟩ = ([], some ⟨"t", 7⟩) :=
  claim_C10 [] ⟨"t", 7⟩ rfl

/-! ### VectorPlayerStream behaviour -/

theorem nextPlayer_ok_eq (v : List Player) (k : Nat) (hk : k < v.length) :
    nextPlayer ⟨v, k⟩ = Except.ok (v.getD k default, ⟨v, k + 1⟩) := by
  unfold nextPlayer
  rw [if_neg (show ¬(k ≥ v.length) by omega)]

theorem drain_step (v : List Player) (k : Nat) (h : k < v.length) :
    drain ⟨v, k⟩ = v.getD k default :: drain ⟨v, k + 1⟩ := by
  rw [drain.eq_def, dif_pos (show 0 < remaining ⟨v, k⟩ from by
    show 0 < v.length - k
    omega)]
  split
  · next e heq =>
    rw [nextPlayer_ok_eq v k h] at heq
    exact absurd heq (by simp)
  · next p s' heq =>
    rw [nextPlayer_ok_eq v k h] at heq
    injection heq with h3
    simp only [Prod.mk.injEq] at h3
    obtain ⟨h4, h5⟩ := h3
    rw [← h4, ← h5]

theorem drain_spec (v : List Player) (k : Nat) (hk : k ≤ v.length) :
    drain ⟨v, k⟩ = v.drop k := by
  by_cases h : k < v.length
  · rw [drain_step v k h, drain_spec v (k + 1) (by omega)]
    rw [List.drop_eq_getElem_cons h, List.getD_eq_getElem v default h]
  · have hkv : k = v.length := by omega
    subst hkv
    rw [drain.eq_def, dif_neg (show ¬0 < remaining ⟨v, v.length⟩ from by
      show ¬0 < v.length - v.length
      omega)]
    rw [List.drop_length]
termination_by v.length - k

/-- C9: a `VectorPlayerStream` built from `v` yields exactly the elements of `v`
in their original order (draining it from position `k` gives `v.drop k`, so from
the start it gives `v` itself — nothing duplicated or skipped); after `k`
successful calls `remaining` returns `v.length - k`, and each in-range call
succeeds and advances the cursor by one. -/
theorem claim_C9 (v : List Player) (k : Nat) (hk : k ≤ v.length) :
    drain (VectorPlayerStream.ofPlayers v) = v ∧
    drain ⟨v, k⟩ = v.drop k ∧
    remaining ⟨v, k⟩ = v.length - k ∧
    (∀ j, j < v.length →
      nextPlayer ⟨v, j⟩ = Except.ok (v.getD j default, ⟨v, j + 1⟩)) := by
  refine ⟨?_, drain_spec v k hk, rfl, fun j hj => nextPlayer_ok_eq v j hj⟩
  have h0 := drain_spec v 0 (by omega)
  simpa [VectorPlayerStream.ofPlayers] using h0

/-- Witness for C9 on a concrete two-player stream read from position 1. -/
theorem claim_C9_witness :
    drain (VectorPlayerStream.ofPlayers [⟨"x", 4⟩, ⟨"y", 6⟩]) = [⟨"x", 4⟩, ⟨"y", 6⟩] ∧
    drain ⟨[⟨"x", 4⟩, ⟨"y", 6⟩], 1⟩ = [⟨"y", 6⟩] ∧
    remaining ⟨[⟨"x", 4⟩, ⟨"y", 6⟩], 1⟩ = 1 ∧
    (∀ j, j < ([⟨"x", 4⟩, ⟨"y", 6⟩] : List Player).length →
      nextPlayer ⟨[⟨"x", 4⟩, ⟨"y", 6⟩], j⟩ =
        Except.ok (([⟨"x", 4⟩, ⟨"y", 6⟩] : List Player).getD j default,
          ⟨[⟨"x", 4⟩, ⟨"y", 6⟩], j + 1⟩)) :=
  claim_C9 [⟨"x", 4⟩, ⟨"y", 6⟩] 1 (by decide)

/-! ### Priming loop -/

theorem primeLoop_go (v : List Player) (idx count R : Nat) (acc : List Player)
    (hidx : idx ≤ v.length) :
    Online.primeLoop ⟨v, idx⟩ count R acc =
      Except.ok (acc ++ (v.drop idx).take (min (R - count) (v.length - idx)),
        count + min (R - count) (v.length - idx),
        ⟨v, idx + min (R - count) (v.length - idx)⟩) := by
  by_cases hc : count < R ∧ idx < v.length
  · rw [Online.primeLoop.eq_def,
      dif_pos (show count < R ∧ 0 < remaining ⟨v, idx⟩ from
        ⟨hc.1, show 0 < v.length - idx by omega⟩)]
    split
    · next e heq =>
      rw [nextPlayer_ok_eq v idx hc.2] at heq
      exact absurd heq (by simp)
    · next p s' heq =>
      rw [nextPlayer_ok_eq v idx hc.2] at heq
      injection heq with h3
      simp only [Prod.mk.injEq] at h3
      obtain ⟨h4, h5⟩ := h3
      rw [← h4, ← h5]
      rw [primeLoop_go v (idx + 1) (count + 1) R (acc ++ [v.getD idx default])
        (by omega)]
      have hd : min (R - count) (v.length - idx) =
          min (R - (count + 1)) (v.length - (idx + 1)) + 1 := by omega
      rw [hd]
      rw [List.drop_eq_getElem_cons hc.2, List.take_succ_cons]
      rw [List.getD_eq_getElem v default hc.2]
      simp only [Except.ok.injEq, Prod.mk.injEq, VectorPlayerStream.mk.injEq]
      exact ⟨by rw [List.append_assoc]; rfl, by omega, trivial, by omega⟩
  · rw [Online.primeLoop.eq_def,
      dif_neg (show ¬(count < R ∧ 0 < remaining ⟨v, idx⟩) from fun hcon => by
        have h22 : 0 < v.length - idx := hcon.2
        exact hc ⟨hcon.1, by omega⟩)]
    have hd0 : min (R - count) (v.length - idx) = 0 := by
      rcases Nat.lt_or_ge count R with h1 | h1
      · have : ¬idx < v.length := fun h2 => hc ⟨h1, h2⟩
        omega
      · omega
    rw [hd0]
    simp
termination_by v.length - idx

/-! ### Milestone arithmetic -/

theorem multiplesIn_self (a R : Nat) : multiplesIn a a R = [] := by
  unfold multiplesIn
  rw [show a - a = 0 by omega]
  rfl

theorem multiplesIn_step (a b R : Nat) (hab : a < b) :
    multiplesIn a b R =
      (if (a + 1) % R = 0 then [a + 1] else []) ++ multiplesIn (a + 1) b R := by
  unfold multiplesIn
  rw [show b - a = (b - (a + 1)) + 1 by omega, List.range'_succ, List.filter_cons]
  by_cases h : (a + 1) % R = 0
  · rw [if_pos (by simpa using h), if_pos h]
    rfl
  · rw [if_neg (by simpa using h), if_neg h]
    rfl

theorem multiplesIn_split (a c b R : Nat) (hac : a ≤ c) (hcb : c ≤ b) :
    multiplesIn a b R = multiplesIn a c R ++ multiplesIn c b R := by
  unfold multiplesIn
  rw [← List.filter_append]
  congr 1
  rw [show b - a = (b - c) + (c - a) by omega,
    ← List.range'_append (a + 1) (c - a) (b - c) 1,
    show a + 1 + 1 * (c - a) = c + 1 by omega]

theorem multiplesIn_nil_of_lt (a b R : Nat) (h : b < R) :
    multiplesIn a b R = [] := by
  unfold multiplesIn
  rw [List.filter_eq_nil_iff]
  intro c hc
  rw [List.mem_range'_1] at hc
  have hcR : c % R = c := Nat.mod_eq_of_lt (by omega)
  simp only [decide_eq_true_eq, hcR]
  omega

theorem multiplesIn_zero_R (R T : Nat) (hR : 0 < R) (hRT : R ≤ T) :
    multiplesIn 0 T R = R :: multiplesIn R T R := by
  rw [multiplesIn_split 0 R T R (by omega) hRT]
  have h1 : multiplesIn 0 (R - 1) R = [] := multiplesIn_nil_of_lt 0 (R - 1) R (by omega)
  have h2 : multiplesIn 0 R R = [R] := by
    rw [multiplesIn_split 0 (R - 1) R R (by omega) (by omega), h1]
    unfold multiplesIn
    rw [show R - (R - 1) = 1 by omega, show R - 1 + 1 = R by omega]
    rw [List.range'_succ]
    simp [Nat.mod_self]
  rw [h2]
  rfl

/-! ### Admission step and cutoff values -/

theorem naiveTopLevels_sorted (xs : List Nat) (k : Nat) :
    List.Sorted (· ≤ ·) (naiveTopLevels xs k) := by
  unfold naiveTopLevels
  exact List.Pairwise.sublist (List.drop_sublist _ _) (sortLv_sorted xs)

theorem naiveTopLevels_length (xs : List Nat) (k : Nat) (h : k ≤ xs.length) :
    (naiveTopLevels xs k).length = k := by
  unfold naiveTopLevels
  rw [List.length_drop, sortLv_length]
  omega

theorem admitStep_length (root : Player) (rest : List Player) (next : Player) :
    (Online.admitStep root rest next).length = rest.length + 1 := by
  unfold Online.admitStep
  split_ifs with h
  · rw [replaceMin_length _ _]
    rfl
  · rfl

theorem admitStep_heap (root : Player) (rest : List Player) (next : Player)
    (hheap : IsMinHeapL (root :: rest)) :
    IsMinHeapL (Online.admitStep root rest next) := by
  unfold Online.admitStep
  split_ifs with h
  · exact (replaceMin_spec _ next (by simp) hheap).1
  · exact hheap

theorem admitStep_topSel (root : Player) (rest : List Player) (next : Player)
    (base : List Nat) (k : Nat) (hheap : IsMinHeapL (root :: rest))
    (hsel : IsTopSel (levels (root :: rest)) base k) :
    IsTopSel (levels (Online.admitStep root rest next)) (next.level_ :: base) k := by
  have hmin := minHeap_root_min hheap (by simp)
  have hroot : lvAt (root :: rest) 0 = root.level_ := rfl
  have hstep := IsTopSel.step hsel root.level_ next.level_
    (by rw [← hroot]; exact hmin.1)
    (by rw [← hroot]; exact hmin.2)
  unfold Online.admitStep
  by_cases h : root.level_ < next.level_
  · rw [if_pos h]
    rw [if_pos h] at hstep
    have hperm := (replaceMin_spec (root :: rest) next (by simp) hheap).2
    have hlv : (levels (Online.replaceMin (root :: rest) next).1).Perm
        (next.level_ :: levels rest) := levels_perm hperm
    have herase : (levels (root :: rest)).erase root.level_ = levels rest := by
      show (root.level_ :: levels rest).erase root.level_ = levels rest
      exact List.erase_cons_head _ _
    rw [herase] at hstep
    exact IsTopSel.perm_sel hlv.symm hstep
  · rw [if_neg h]
    rw [if_neg h] at hstep
    exact hstep

theorem trueCutoff_eq_root (v : List Player) (c R : Nat) (buf : List Player)
    (hne : buf ≠ []) (hheap : IsMinHeapL buf)
    (hsel : IsTopSel (levels buf) (levels (v.take c)) (min R c)) :
    lvAt buf 0 = trueCutoff v c R := by
  unfold trueCutoff
  rw [← IsTopSel.sortLv_eq hsel]
  have hmin := minHeap_root_min hheap hne
  exact (sortLv_headD_eq hmin.1 hmin.2).symm

theorem trueCutoff_min (v : List Player) (c R : Nat) (hc1 : 0 < min R c)
    (hc2 : c ≤ v.length) :
    trueCutoff v c R ∈ naiveTopLevels (levels (v.take c)) (min R c) ∧
    ∀ x ∈ naiveTopLevels (levels (v.take c)) (min R c), trueCutoff v c R ≤ x := by
  unfold trueCutoff
  apply sorted_headD_min (naiveTopLevels_sorted _ _)
  intro hnil
  have hlen := naiveTopLevels_length (levels (v.take c)) (min R c) (by
    rw [levels_length, List.length_take]
    omega)
  rw [hnil] at hlen
  simp at hlen
  omega

/-- Main-loop invariant of `Online::rankIncoming`: starting synchronized (the
cursor equals the running count), with a min-heap buffer holding a true
top-`min R idx` selection of the first `idx` players, the loop consumes the
rest of the stream, appends exactly the milestone cutoffs with their true
values, and ends with a top-`min R total` selection. -/
theorem processLoop_spec (v : List Player) (R idx : Nat) (buf : List Player)
    (cut : List (Nat × Nat)) (hR : 0 < R) (hidx : idx ≤ v.length)
    (hfull : idx < v.length → R ≤ idx) (hheap : IsMinHeapL buf)
    (hlen : buf.length = min R idx)
    (hsel : IsTopSel (levels buf) (levels (v.take idx)) (min R idx)) :
    ∃ bufF,
      Online.processLoop ⟨v, idx⟩ buf idx R cut =
        Except.ok (bufF, v.length,
          cut ++ (multiplesIn idx v.length R).map (fun c => (c, trueCutoff v c R)),
          ⟨v, v.length⟩) ∧
      IsMinHeapL bufF ∧ bufF.length = min R v.length ∧
      IsTopSel (levels bufF) (levels v) (min R v.length) := by
  by_cases hend : idx < v.length
  · have hRidx : R ≤ idx := hfull hend
    have hminR : min R idx = R := by omega
    have hbuflen : buf.length = R := by omega
    obtain ⟨root, rest, rfl⟩ := List.exists_cons_of_ne_nil (show buf ≠ [] from by
      intro hnil
      rw [hnil] at hbuflen
      simp at hbuflen
      omega)
    rw [Online.processLoop.eq_def,
      dif_pos (show 0 < remaining ⟨v, idx⟩ from show 0 < v.length - idx by omega)]
    split
    · next e heq =>
      rw [nextPlayer_ok_eq v idx hend] at heq
      exact absurd heq (by simp)
    · next p s' heq =>
      rw [nextPlayer_ok_eq v idx hend] at heq
      injection heq with h3
      simp only [Prod.mk.injEq] at h3
      obtain ⟨h4, h5⟩ := h3
      rw [← h4, ← h5]
      show ∃ bufF,
        (if R = 0 then Except.error RankErr.modZero
         else
           if (idx + 1) % R = 0 then
             match Online.admitStep root rest (v.getD idx default) with
             | [] => Except.error RankErr.emptyFront
             | root' :: rest' =>
               Online.processLoop ⟨v, idx + 1⟩ (root' :: rest') (idx + 1) R
                 (cut ++ [(idx + 1, root'.level_)])
           else
             Online.processLoop ⟨v, idx + 1⟩
               (Online.admitStep root rest (v.getD idx default)) (idx + 1) R cut) =
          Except.ok (bufF, v.length,
            cut ++ List.map (fun c => (c, trueCutoff v c R)) (multiplesIn idx v.length R),
            ⟨v, v.length⟩) ∧
        IsMinHeapL bufF ∧ bufF.length = min R v.length ∧
        IsTopSel (levels bufF) (levels v) (min R v.length)
      rw [if_neg (show ¬R = 0 by omega)]
      have hne2 : Online.admitStep root rest (v.getD idx default) ≠ [] := by
        intro hnil
        have h9 := admitStep_length root rest (v.getD idx default)
        rw [hnil] at h9
        simp at h9
      obtain ⟨root', rest', hbuf'⟩ := List.exists_cons_of_ne_nil hne2
      have hheap' : IsMinHeapL (Online.admitStep root rest (v.getD idx default)) :=
        admitStep_heap root rest _ hheap
      have hlen' : (Online.admitStep root rest (v.getD idx default)).length = R := by
        rw [admitStep_length]
        have h9 : rest.length + 1 = R := by simpa using hbuflen
        omega
      have hselA : IsTopSel (levels (Online.admitStep root rest (v.getD idx default)))
          (levels (v.take (idx + 1))) (min R (idx + 1)) := by
        have h1 := admitStep_topSel root rest (v.getD idx default)
          (levels (v.take idx)) (min R idx) hheap hsel
        have h2 : v.take (idx + 1) = v.take idx ++ [v[idx]] := by
          rw [List.take_succ, List.getElem?_eq_getElem hend]
          rfl
        have h3 : (levels (v.take (idx + 1))).Perm
            ((v.getD idx default).level_ :: levels (v.take idx)) := by
          rw [h2, levels_append, List.getD_eq_getElem v default hend]
          exact List.perm_append_comm
        have h4min : min R (idx + 1) = min R idx := by omega
        rw [h4min]
        exact IsTopSel.perm_base h3.symm h1
      by_cases hmod : (idx + 1) % R = 0
      · rw [if_pos hmod, hbuf']
        obtain ⟨bufF, hF1, hF2, hF3, hF4⟩ :=
          processLoop_spec v R (idx + 1) (root' :: rest')
            (cut ++ [(idx + 1, root'.level_)]) hR (by omega) (fun _ => by omega)
            (hbuf' ▸ hheap') (by rw [← hbuf', hlen']; omega)
            (by rw [← hbuf']; exact hselA)
        refine ⟨bufF, ?_, hF2, hF3, hF4⟩
        show Online.processLoop ⟨v, idx + 1⟩ (root' :: rest') (idx + 1) R
            (cut ++ [(idx + 1, root'.level_)]) =
          Except.ok (bufF, v.length,
            cut ++ List.map (fun c => (c, trueCutoff v c R)) (multiplesIn idx v.length R),
            ⟨v, v.length⟩)
        rw [hF1]
        have hval : root'.level_ = trueCutoff v (idx + 1) R := by
          have h9 := trueCutoff_eq_root v (idx + 1) R (root' :: rest') (by simp)
            (hbuf' ▸ hheap') (by rw [← hbuf']; exact hselA)
          exact h9
        rw [multiplesIn_step idx v.length R hend, if_pos hmod]
        simp only [List.map_append, List.map_cons, List.map_nil]
        rw [hval, List.append_assoc]
      · rw [if_neg hmod]
        obtain ⟨bufF, hF1, hF2, hF3, hF4⟩ :=
          processLoop_spec v R (idx + 1)
            (Online.admitStep root rest (v.getD idx default)) cut hR (by omega)
            (fun _ => by omega) hheap' (by rw [hlen']; omega) hselA
        refine ⟨bufF, ?_, hF2, hF3, hF4⟩
        rw [hF1]
        rw [multiplesIn_step idx v.length R hend, if_neg hmod]
        simp only [List.nil_append]
  · have hidx2 : idx = v.length := by omega
    subst hidx2
    rw [Online.processLoop.eq_def,
      dif_neg (show ¬0 < remaining ⟨v, v.length⟩ from by
        show ¬0 < v.length - v.length
        omega)]
    refine ⟨buf, ?_, hheap, hlen, ?_⟩
    · rw [multiplesIn_self]
      simp
    · rw [List.take_length] at hsel
      exact hsel
termination_by v.length - idx

/-- Full specification of the tracker tail for any conforming `std::make_heap`
result `heap0` over the primed prefix: the call succeeds, `top_` is the sorted
true top selection, and `cutoffs_` is exactly the expected milestone list. -/
theorem rankAfterPrime_spec (v : List Player) (R : Nat) (heap0 : List Player)
    (hR : 0 < R) (hheap : IsMinHeapL heap0)
    (hperm : heap0.Perm (v.take (min R v.length))) :
    ∃ res, Online.rankAfterPrime heap0 (min R v.length) ⟨v, min R v.length⟩ R =
        Except.ok res ∧
      res.top_.length = min R v.length ∧
      List.Sorted LevelLE res.top_ ∧
      (levels res.top_).Perm (naiveTopLevels (levels v) (min R v.length)) ∧
      res.cutoffs_ = expectedCutoffs v R := by
  have hlen0 : heap0.length = min R v.length := by
    rw [hperm.length_eq, List.length_take]
    omega
  have hsel0 : IsTopSel (levels heap0) (levels (v.take (min R v.length)))
      (min R v.length) := by
    have hself := IsTopSel.self (levels (v.take (min R v.length)))
    have hl : (levels (v.take (min R v.length))).length = min R v.length := by
      rw [levels_length, List.length_take]
      omega
    rw [hl] at hself
    exact IsTopSel.perm_sel (levels_perm hperm.symm) hself
  by_cases hcase : R ≤ v.length
  · -- the priming filled the interval: an initial cutoff at R is recorded
    have hminA : min R v.length = R := by omega
    obtain ⟨root0, rest0, rfl⟩ := List.exists_cons_of_ne_nil
      (show heap0 ≠ [] from by
        intro hnil
        rw [hnil] at hlen0
        simp at hlen0
        omega)
    have hselR : IsTopSel (levels (root0 :: rest0)) (levels (v.take R)) (min R R) := by
      rw [show min R R = R by omega, ← hminA]
      exact hsel0
    have hval0 : root0.level_ = trueCutoff v R R :=
      trueCutoff_eq_root v R R (root0 :: rest0) (by simp) hheap hselR
    obtain ⟨bufF, hF1, hF2, hF3, hF4⟩ :=
      processLoop_spec v R R (root0 :: rest0) [(R, root0.level_)] hR hcase
        (fun _ => le_refl R)
        hheap (by rw [hlen0, hminA]; omega)
        (by rw [show min R R = R by omega, ← hminA]; exact hsel0)
    have hstep1 : Online.rankAfterPrime (root0 :: rest0) (min R v.length)
        ⟨v, min R v.length⟩ R =
        match Online.processLoop ⟨v, R⟩ (root0 :: rest0) R R [(R, root0.level_)] with
        | Except.error e => Except.error e
        | Except.ok (topPlayers, playerCount, cutoffs, _) =>
          if R = 0 then Except.error RankErr.modZero
          else if playerCount % R ≠ 0 then
            match topPlayers with
            | [] => Except.error RankErr.emptyFront
            | root :: _ =>
              Except.ok { top_ := sortPlayers topPlayers,
                          cutoffs_ := cutoffs ++ [(playerCount, root.level_)] }
          else Except.ok { top_ := sortPlayers topPlayers, cutoffs_ := cutoffs } := by
      rw [hminA]
      unfold Online.rankAfterPrime
      rw [if_pos rfl]
    rw [hstep1, hF1]
    have hcutA : [(R, root0.level_)] ++
        (multiplesIn R v.length R).map (fun c => (c, trueCutoff v c R)) =
        (multiplesIn 0 v.length R).map (fun c => (c, trueCutoff v c R)) := by
      rw [multiplesIn_zero_R R v.length hR hcase]
      rw [List.map_cons, hval0]
      rfl
    have hmain := sorted_top_of_topSel bufF v (min R v.length) hF4
    by_cases hTmod : v.length % R = 0
    · show ∃ res,
          (if R = 0 then Except.error RankErr.modZero
           else if v.length % R ≠ 0 then
             match bufF with
             | [] => Except.error RankErr.emptyFront
             | root :: _ =>
               Except.ok (RankingResult.mk (sortPlayers bufF)
                 (([(R, root0.level_)] ++
                   (multiplesIn R v.length R).map (fun c => (c, trueCutoff v c R))) ++
                   [(v.length, root.level_)]))
           else Except.ok (RankingResult.mk (sortPlayers bufF)
             ([(R, root0.level_)] ++
               (multiplesIn R v.length R).map (fun c => (c, trueCutoff v c R))))) =
          Except.ok res ∧
        res.top_.length = min R v.length ∧
        List.Sorted LevelLE res.top_ ∧
        (levels res.top_).Perm (naiveTopLevels (levels v) (min R v.length)) ∧
        res.cutoffs_ = expectedCutoffs v R
      rw [if_neg (show ¬R = 0 by omega),
        if_neg (show ¬(v.length % R ≠ 0) from fun h => h hTmod)]
      refine ⟨_, rfl, hmain.1, hmain.2.1, hmain.2.2, ?_⟩
      show [(R, root0.level_)] ++
          (multiplesIn R v.length R).map (fun c => (c, trueCutoff v c R)) =
        expectedCutoffs v R
      rw [hcutA]
      unfold expectedCutoffs cutoffKeysList
      rw [if_neg (show ¬(v.length % R ≠ 0) from fun h => h hTmod), List.append_nil]
    · obtain ⟨rootF, restF, hbufF⟩ := List.exists_cons_of_ne_nil
        (show bufF ≠ [] from by
          intro hnil
          rw [hnil] at hF3
          simp at hF3
          omega)
      have hselF : IsTopSel (levels bufF) (levels (v.take v.length))
          (min R v.length) := by
        rw [List.take_length]
        exact hF4
      have hvalF : rootF.level_ = trueCutoff v v.length R := by
        have h9 := trueCutoff_eq_root v v.length R bufF
          (by rw [hbufF]; simp) hF2 hselF
        rw [hbufF] at h9
        exact h9
      show ∃ res,
          (if R = 0 then Except.error RankErr.modZero
           else if v.length % R ≠ 0 then
             match bufF with
             | [] => Except.error RankErr.emptyFront
             | root :: _ =>
               Except.ok (RankingResult.mk (sortPlayers bufF)
                 (([(R, root0.level_)] ++
                   (multiplesIn R v.length R).map (fun c => (c, trueCutoff v c R))) ++
                   [(v.length, root.level_)]))
           else Except.ok (RankingResult.mk (sortPlayers bufF)
             ([(R, root0.level_)] ++
               (multiplesIn R v.length R).map (fun c => (c, trueCutoff v c R))))) =
          Except.ok res ∧
        res.top_.length = min R v.length ∧
        List.Sorted LevelLE res.top_ ∧
        (levels res.top_).Perm (naiveTopLevels (levels v) (min R v.length)) ∧
        res.cutoffs_ = expectedCutoffs v R
      rw [if_neg (show ¬R = 0 by omega), if_pos hTmod, hbufF]
      refine ⟨_, rfl, ?_, ?_, ?_, ?_⟩
      · rw [← hbufF]
        exact hmain.1
      · rw [← hbufF]
        exact hmain.2.1
      · rw [← hbufF]
        exact hmain.2.2
      · show ([(R, root0.level_)] ++
            (multiplesIn R v.length R).map (fun c => (c, trueCutoff v c R))) ++
            [(v.length, rootF.level_)] = expectedCutoffs v R
        rw [hcutA, hvalF]
        unfold expectedCutoffs cutoffKeysList
        rw [if_pos hTmod, List.map_append]
        rfl
  · -- the source ran dry during priming: no initial cutoff
    have hminB : min R v.length = v.length := by omega
    obtain ⟨bufF, hF1, hF2, hF3, hF4⟩ :=
      processLoop_spec v R (min R v.length) heap0 [] hR (by omega) (by omega)
        hheap (by rw [hlen0]; omega)
        (by rw [show min R (min R v.length) = min R v.length by omega]; exact hsel0)
    have hstep1 : Online.rankAfterPrime heap0 (min R v.length)
        ⟨v, min R v.length⟩ R =
        match Online.processLoop ⟨v, min R v.length⟩ heap0 (min R v.length) R [] with
        | Except.error e => Except.error e
        | Except.ok (topPlayers, playerCount, cutoffs, _) =>
          if R = 0 then Except.error RankErr.modZero
          else if playerCount % R ≠ 0 then
            match topPlayers with
            | [] => Except.error RankErr.emptyFront
            | root :: _ =>
              Except.ok { top_ := sortPlayers topPlayers,
                          cutoffs_ := cutoffs ++ [(playerCount, root.level_)] }
          else Except.ok { top_ := sortPlayers topPlayers, cutoffs_ := cutoffs } := by
      unfold Online.rankAfterPrime
      rw [if_neg (show ¬min R v.length = R by omega)]
    rw [hstep1, hF1]
    have hmultB : multiplesIn (min R v.length) v.length R = [] := by
      rw [hminB]
      exact multiplesIn_self v.length R
    have hzeroB : multiplesIn 0 v.length R = [] :=
      multiplesIn_nil_of_lt 0 v.length R (by omega)
    have hmain := sorted_top_of_topSel bufF v (min R v.length) hF4
    by_cases hTmod : v.length % R = 0
    · show ∃ res,
          (if R = 0 then Except.error RankErr.modZero
           else if v.length % R ≠ 0 then
             match bufF with
             | [] => Except.error RankErr.emptyFront
             | root :: _ =>
               Except.ok (RankingResult.mk (sortPlayers bufF)
                 (([] ++ (multiplesIn (min R v.length) v.length R).map
                   (fun c => (c, trueCutoff v c R))) ++ [(v.length, root.level_)]))
           else Except.ok (RankingResult.mk (sortPlayers bufF)
             ([] ++ (multiplesIn (min R v.length) v.length R).map
               (fun c => (c, trueCutoff v c R))))) =
          Except.ok res ∧
        res.top_.length = min R v.length ∧
        List.Sorted LevelLE res.top_ ∧
        (levels res.top_).Perm (naiveTopLevels (levels v) (min R v.length)) ∧
        res.cutoffs_ = expectedCutoffs v R
      rw [if_neg (show ¬R = 0 by omega),
        if_neg (show ¬(v.length % R ≠ 0) from fun h => h hTmod)]
      refine ⟨_, rfl, hmain.1, hmain.2.1, hmain.2.2, ?_⟩
      show [] ++ (multiplesIn (min R v.length) v.length R).map
          (fun c => (c, trueCutoff v c R)) = expectedCutoffs v R
      rw [hmultB]
      unfold expectedCutoffs cutoffKeysList
      rw [if_neg (show ¬(v.length % R ≠ 0) from fun h => h hTmod), List.append_nil,
        hzeroB]
      rfl
    · obtain ⟨rootF, restF, hbufF⟩ := List.exists_cons_of_ne_nil
        (show bufF ≠ [] from by
          intro hnil
          rw [hnil] at hF3
          have h0 : v.length = 0 := by
            simp at hF3
            omega
          exact hTmod (by rw [h0]; exact Nat.zero_mod R))
      have hselF : IsTopSel (levels bufF) (levels (v.take v.length))
          (min R v.length) := by
        rw [List.take_length]
        exact hF4
      have hvalF : rootF.level_ = trueCutoff v v.length R := by
        have h9 := trueCutoff_eq_root v v.length R bufF
          (by rw [hbufF]; simp) hF2 hselF
        rw [hbufF] at h9
        exact h9
      show ∃ res,
          (if R = 0 then Except.error RankErr.modZero
           else if v.length % R ≠ 0 then
             match bufF with
             | [] => Except.error RankErr.emptyFront
             | root :: _ =>
               Except.ok (RankingResult.mk (sortPlayers bufF)
                 (([] ++ (multiplesIn (min R v.length) v.length R).map
                   (fun c => (c, trueCutoff v c R))) ++ [(v.length, root.level_)]))
           else Except.ok (RankingResult.mk (sortPlayers bufF)
             ([] ++ (multiplesIn (min R v.length) v.length R).map
               (fun c => (c, trueCutoff v c R))))) =
          Except.ok res ∧
        res.top_.length = min R v.length ∧
        List.Sorted LevelLE res.top_ ∧
        (levels res.top_).Perm (naiveTopLevels (levels v) (min R v.length)) ∧
        res.cutoffs_ = expectedCutoffs v R
      rw [if_neg (show ¬R = 0 by omega), if_pos hTmod, hbufF]
      refine ⟨_, rfl, ?_, ?_, ?_, ?_⟩
      · rw [← hbufF]
        exact hmain.1
      · rw [← hbufF]
        exact hmain.2.1
      · rw [← hbufF]
        exact hmain.2.2
      · show ([] ++ (multiplesIn (min R v.length) v.length R).map
            (fun c => (c, trueCutoff v c R))) ++ [(v.length, rootF.level_)] =
          expectedCutoffs v R
        rw [hmultB, hvalF]
        unfold expectedCutoffs cutoffKeysList
        rw [if_pos hTmod, hzeroB, List.map_append]
        rfl

theorem sortPlayers_minHeap (l : List Player) : IsMinHeapL (sortPlayers l) := by
  intro j hj h0
  have hs := List.pairwise_iff_get.mp (sortPlayers_sorted l)
  have hplt : (j - 1) / 2 < j := by omega
  have hplen : (j - 1) / 2 < (sortPlayers l).length := by omega
  have h9 := hs ⟨(j - 1) / 2, hplen⟩ ⟨j, hj⟩ hplt
  unfold lvAt
  rw [List.getD_eq_getElem _ default hplen, List.getD_eq_getElem _ default hj]
  exact h9

theorem primeLoop_clean (v : List Player) (R : Nat) :
    Online.primeLoop ⟨v, 0⟩ 0 R [] =
      Except.ok (v.take (min R v.length), min R v.length, ⟨v, min R v.length⟩) := by
  rw [primeLoop_go v 0 0 R [] (by omega)]
  simp

theorem expectedCutoffs_nil (v : List Player) (R : Nat) (hR : 0 < R)
    (hv : v.length = 0) : expectedCutoffs v R = [] := by
  unfold expectedCutoffs cutoffKeysList
  rw [hv, multiplesIn_self, if_neg (show ¬(0 % R ≠ 0) from fun h => h (Nat.zero_mod R))]
  rfl

/-- The composed concrete pipeline (priming, canonical conforming heapify,
tail) succeeds for every positive interval with the specified result. -/
theorem rankIncoming_spec (v : List Player) (R : Nat) (hR : 0 < R) :
    ∃ res, Online.rankIncoming ⟨v, 0⟩ R = Except.ok res ∧
      res.top_.length = min R v.length ∧
      List.Sorted LevelLE res.top_ ∧
      (levels res.top_).Perm (naiveTopLevels (levels v) (min R v.length)) ∧
      res.cutoffs_ = expectedCutoffs v R := by
  unfold Online.rankIncoming
  rw [primeLoop_clean v R]
  show ∃ res, Online.rankAfterPrime (Online.makeHeapGreater (v.take (min R v.length)))
      (min R v.length) ⟨v, min R v.length⟩ R = Except.ok res ∧
    res.top_.length = min R v.length ∧
    List.Sorted LevelLE res.top_ ∧
    (levels res.top_).Perm (naiveTopLevels (levels v) (min R v.length)) ∧
    res.cutoffs_ = expectedCutoffs v R
  exact rankAfterPrime_spec v R (Online.makeHeapGreater (v.take (min R v.length))) hR
    (sortPlayers_minHeap _) (sortPlayers_perm _)

/-- C2: for every stream of T players and every positive interval R — with the
`std::make_heap` call constrained by its contract, i.e. for every conforming
minimum-heap arrangement `heap0` of the primed prefix — the tracker consumes
the stream to exhaustion (the loop ends at cursor T with nothing remaining)
and succeeds with a `top_` of length `min R T`, sorted ascending by level,
whose level multiset is the true top-`min R T` of the whole stream; an empty
stream yields empty `top_` and `cutoffs_`.  The second conjunct states the
same for the composed `rankIncoming` with the canonical conforming heapify. -/
theorem claim_C2 (v : List Player) (R : Nat) (heap0 : List Player) (hR : 0 < R)
    (hheap : IsMinHeapL heap0) (hperm : heap0.Perm (v.take (min R v.length))) :
    (∃ res, Online.rankAfterPrime heap0 (min R v.length) ⟨v, min R v.length⟩ R =
        Except.ok res ∧
      res.top_.length = min R v.length ∧
      List.Sorted LevelLE res.top_ ∧
      (levels res.top_).Perm (naiveTopLevels (levels v) (min R v.length)) ∧
      (v.length = 0 → res.top_ = [] ∧ res.cutoffs_ = [])) ∧
    (∃ res, Online.rankIncoming ⟨v, 0⟩ R = Except.ok res ∧
      res.top_.length = min R v.length ∧
      List.Sorted LevelLE res.top_ ∧
      (levels res.top_).Perm (naiveTopLevels (levels v) (min R v.length))) ∧
    (∃ bufF cutsF,
      Online.processLoop ⟨v, min R v.length⟩ heap0 (min R v.length) R [] =
        Except.ok (bufF, v.length, cutsF, ⟨v, v.length⟩) ∧
      remaining ⟨v, v.length⟩ = 0) := by
  obtain ⟨res, h1, h2, h3, h4, h5⟩ := rankAfterPrime_spec v R heap0 hR hheap hperm
  obtain ⟨res2, g1, g2, g3, g4, g5⟩ := rankIncoming_spec v R hR
  obtain ⟨bufF, f1, f2, f3, f4⟩ :=
    processLoop_spec v R (min R v.length) heap0 [] hR (by omega) (by omega)
      hheap (by rw [hperm.length_eq, List.length_take]; omega)
      (by
        rw [show min R (min R v.length) = min R v.length by omega]
        have hself := IsTopSel.self (levels (v.take (min R v.length)))
        have hl : (levels (v.take (min R v.length))).length = min R v.length := by
          rw [levels_length, List.length_take]
          omega
        rw [hl] at hself
        exact IsTopSel.perm_sel (levels_perm hperm.symm) hself)
  refine ⟨⟨res, h1, h2, h3, h4, ?_⟩, ⟨res2, g1, g2, g3, g4⟩,
    ⟨bufF, _, f1, by show v.length - v.length = 0; omega⟩⟩
  intro hv
  constructor
  · have : res.top_.length = 0 := by rw [h2]; omega
    exact List.eq_nil_of_length_eq_zero this
  · rw [h5]
    exact expectedCutoffs_nil v R hR hv

/-- Witness for C2: stream `[7, 2, 9]` with interval 2; `heap0 = [2, 7]` is a
conforming min-heap arrangement of the primed prefix `[7, 2]`. -/
theorem claim_C2_witness :
    ((∃ res, Online.rankAfterPrime [⟨"b", 2⟩, ⟨"a", 7⟩] 2
        ⟨[⟨"a", 7⟩, ⟨"b", 2⟩, ⟨"c", 9⟩], 2⟩ 2 = Except.ok res ∧
      res.top_.length = 2 ∧
      List.Sorted LevelLE res.top_ ∧
      (levels res.top_).Perm (naiveTopLevels (levels [⟨"a", 7⟩, ⟨"b", 2⟩, ⟨"c", 9⟩]) 2) ∧
      ((3 : Nat) = 0 → res.top_ = [] ∧ res.cutoffs_ = [])) ∧
    (∃ res, Online.rankIncoming ⟨[⟨"a", 7⟩, ⟨"b", 2⟩, ⟨"c", 9⟩], 0⟩ 2 = Except.ok res ∧
      res.top_.length = 2 ∧
      List.Sorted LevelLE res.top_ ∧
      (levels res.top_).Perm (naiveTopLevels (levels [⟨"a", 7⟩, ⟨"b", 2⟩, ⟨"c", 9⟩]) 2)) ∧
    (∃ bufF cutsF,
      Online.processLoop ⟨[⟨"a", 7⟩, ⟨"b", 2⟩, ⟨"c", 9⟩], 2⟩ [⟨"b", 2⟩, ⟨"a", 7⟩] 2 2 [] =
        Except.ok (bufF, 3, cutsF, ⟨[⟨"a", 7⟩, ⟨"b", 2⟩, ⟨"c", 9⟩], 3⟩) ∧
      remaining ⟨[⟨"a", 7⟩, ⟨"b", 2⟩, ⟨"c", 9⟩], 3⟩ = 0)) :=
  claim_C2 [⟨"a", 7⟩, ⟨"b", 2⟩, ⟨"c", 9⟩] 2 [⟨"b", 2⟩, ⟨"a", 7⟩]
    (by decide) (by decide) (by decide)

theorem multiplesIn_succ_last (b R : Nat) :
    multiplesIn b (b + 1) R = if (b + 1) % R = 0 then [b + 1] else [] := by
  rw [multiplesIn_step b (b + 1) R (by omega), multiplesIn_self, List.append_nil]

theorem multiplesIn_progression (R : Nat) (hR : 0 < R) (T : Nat) :
    multiplesIn 0 T R = (List.range (T / R)).map (fun i => (i + 1) * R) := by
  induction T with
  | zero =>
    rw [multiplesIn_self, Nat.zero_div]
    rfl
  | succ T ih =>
    rw [multiplesIn_split 0 T (T + 1) R (by omega) (by omega), ih,
      multiplesIn_succ_last, Nat.succ_div]
    by_cases hdvd : R ∣ T + 1
    · rw [if_pos hdvd, List.range_succ, List.map_append]
      congr 1
      rw [if_pos (by
        have h9 := Nat.div_mul_cancel hdvd
        have h10 := Nat.div_add_mod (T + 1) R
        omega)]
      have h1 : (T + 1) / R = T / R + 1 := by rw [Nat.succ_div, if_pos hdvd]
      show [T + 1] = [(T / R + 1) * R]
      rw [← h1, Nat.div_mul_cancel hdvd]
    · rw [if_neg hdvd,
        if_neg (fun h => hdvd (Nat.dvd_of_mod_eq_zero h)), List.append_nil,
        Nat.add_zero]

theorem cutoffKeys_mem (T R c : Nat) (hR : 0 < R) (hc : c ∈ cutoffKeysList T R) :
    0 < c ∧ c ≤ T := by
  unfold cutoffKeysList at hc
  rcases List.mem_append.mp hc with h1 | h2
  · unfold multiplesIn at h1
    have h3 := (List.mem_filter.mp h1).1
    rw [List.mem_range'_1] at h3
    omega
  · by_cases hT : T % R ≠ 0
    · rw [if_pos hT] at h2
      simp at h2
      have hT0 : T ≠ 0 := fun h0 => hT (by rw [h0]; exact Nat.zero_mod R)
      omega
    · rw [if_neg hT] at h2
      exact absurd h2 (List.not_mem_nil c)

/-- C3: for every stream and positive interval — under the `std::make_heap`
contract, i.e. for every conforming min-heap `heap0` over the primed prefix —
the cutoff map is exactly the association list over the key set
`{R, 2R, ..., floor(T/R)*R}` (given in that progression form by the second
conjunct) plus `{T}` when `T` is not a multiple of `R`, and every recorded
value is the minimum (membership plus lower bound, third conjunct) among the
true top-`min R c` levels of the first `c` players. -/
theorem claim_C3 (v : List Player) (R : Nat) (heap0 : List Player) (hR : 0 < R)
    (hheap : IsMinHeapL heap0) (hperm : heap0.Perm (v.take (min R v.length))) :
    (∃ res, Online.rankAfterPrime heap0 (min R v.length) ⟨v, min R v.length⟩ R =
        Except.ok res ∧
      res.cutoffs_ = expectedCutoffs v R ∧
      res.cutoffs_.map Prod.fst = cutoffKeysList v.length R ∧
      ∀ p ∈ res.cutoffs_, p.2 = trueCutoff v p.1 R ∧
        p.2 ∈ naiveTopLevels (levels (v.take p.1)) (min R p.1) ∧
        ∀ x ∈ naiveTopLevels (levels (v.take p.1)) (min R p.1), p.2 ≤ x) ∧
    cutoffKeysList v.length R =
      (List.range (v.length / R)).map (fun i => (i + 1) * R) ++
        (if v.length % R ≠ 0 then [v.length] else []) ∧
    (∃ res, Online.rankIncoming ⟨v, 0⟩ R = Except.ok res ∧
      res.cutoffs_ = expectedCutoffs v R) := by
  obtain ⟨res, h1, h2, h3, h4, h5⟩ := rankAfterPrime_spec v R heap0 hR hheap hperm
  obtain ⟨res2, g1, g2, g3, g4, g5⟩ := rankIncoming_spec v R hR
  refine ⟨⟨res, h1, h5, ?_, ?_⟩, ?_, ⟨res2, g1, g5⟩⟩
  · rw [h5]
    unfold expectedCutoffs
    rw [List.map_map]
    have hcomp : (Prod.fst ∘ fun c => (c, trueCutoff v c R)) = id := rfl
    rw [hcomp, List.map_id]
  · intro p hp
    rw [h5] at hp
    unfold expectedCutoffs at hp
    obtain ⟨c, hc, rfl⟩ := List.mem_map.mp hp
    obtain ⟨hc1, hc2⟩ := cutoffKeys_mem v.length R c hR hc
    have hmin := trueCutoff_min v c R (by omega) hc2
    exact ⟨rfl, hmin.1, hmin.2⟩
  · unfold cutoffKeysList
    rw [multiplesIn_progression R hR v.length]

/-- Witness for C3: stream `[5, 9, 2, 8]` with interval 3; `heap0 = [2, 5, 9]`
is a conforming min-heap arrangement of the primed prefix `[5, 9, 2]`. -/
theorem claim_C3_witness :
    ((∃ res, Online.rankAfterPrime [⟨"c", 2⟩, ⟨"a", 5⟩, ⟨"b", 9⟩] 3
        ⟨[⟨"a", 5⟩, ⟨"b", 9⟩, ⟨"c", 2⟩, ⟨"d", 8⟩], 3⟩ 3 = Except.ok res ∧
      res.cutoffs_ = expectedCutoffs [⟨"a", 5⟩, ⟨"b", 9⟩, ⟨"c", 2⟩, ⟨"d", 8⟩] 3 ∧
      res.cutoffs_.map Prod.fst = cutoffKeysList 4 3 ∧
      ∀ p ∈ res.cutoffs_,
        p.2 = trueCutoff [⟨"a", 5⟩, ⟨"b", 9⟩, ⟨"c", 2⟩, ⟨"d", 8⟩] p.1 3 ∧
        p.2 ∈ naiveTopLevels
          (levels (([⟨"a", 5⟩, ⟨"b", 9⟩, ⟨"c", 2⟩, ⟨"d", 8⟩] : List Player).take p.1))
          (min 3 p.1) ∧
        ∀ x ∈ naiveTopLevels
          (levels (([⟨"a", 5⟩, ⟨"b", 9⟩, ⟨"c", 2⟩, ⟨"d", 8⟩] : List Player).take p.1))
          (min 3 p.1), p.2 ≤ x) ∧
    cutoffKeysList 4 3 =
      (List.range (4 / 3)).map (fun i => (i + 1) * 3) ++
        (if (4 : Nat) % 3 ≠ 0 then [4] else []) ∧
    (∃ res, Online.rankIncoming ⟨[⟨"a", 5⟩, ⟨"b", 9⟩, ⟨"c", 2⟩, ⟨"d", 8⟩], 0⟩ 3 =
        Except.ok res ∧
      res.cutoffs_ = expectedCutoffs [⟨"a", 5⟩, ⟨"b", 9⟩, ⟨"c", 2⟩, ⟨"d", 8⟩] 3)) :=
  claim_C3 [⟨"a", 5⟩, ⟨"b", 9⟩, ⟨"c", 2⟩, ⟨"d", 8⟩] 3 [⟨"c", 2⟩, ⟨"a", 5⟩, ⟨"b", 9⟩]
    (by decide) (by decide) (by decide)

/-- C8: during the main loop, a player whose level does not strictly exceed the
current heap root's level leaves the leaderboard buffer entirely unchanged: the
admission step returns the buffer as-is (in particular, a level equal to the
current minimum is never admitted), and the loop recurses with the very same
buffer — only the count and, at a milestone, the cutoff list advance. -/
theorem claim_C8 (s s' : VectorPlayerStream) (root next : Player)
    (rest : List Player) (count R : Nat) (cut : List (Nat × Nat))
    (hrem : 0 < remaining s) (hnp : nextPlayer s = Except.ok (next, s'))
    (hle : next.level_ ≤ root.level_) (hR : R ≠ 0) :
    Online.admitStep root rest next = root :: rest ∧
    Online.processLoop s (root :: rest) count R cut =
      Online.processLoop s' (root :: rest) (count + 1) R
        (if (count + 1) % R = 0 then cut ++ [(count + 1, root.level_)] else cut) := by
  have hstep : Online.admitStep root rest next = root :: rest := by
    unfold Online.admitStep
    rw [if_neg (by omega)]
  refine ⟨hstep, ?_⟩
  rw [Online.processLoop.eq_def, dif_pos hrem]
  split
  · next e heq =>
    rw [hnp] at heq
    exact absurd heq (by simp)
  · next p s2 heq =>
    rw [hnp] at heq
    injection heq with h3
    simp only [Prod.mk.injEq] at h3
    obtain ⟨h4, h5⟩ := h3
    rw [← h4, ← h5]
    show (if R = 0 then Except.error RankErr.modZero
      else if (count + 1) % R = 0 then
        match Online.admitStep root rest next with
        | [] => Except.error RankErr.emptyFront
        | root' :: rest' =>
          Online.processLoop s' (root' :: rest') (count + 1) R
            (cut ++ [(count + 1, root'.level_)])
      else Online.processLoop s' (Online.admitStep root rest next) (count + 1) R cut) =
      Online.processLoop s' (root :: rest) (count + 1) R
        (if (count + 1) % R = 0 then cut ++ [(count + 1, root.level_)] else cut)
    rw [if_neg hR, hstep]
    by_cases hmod : (count + 1) % R = 0
    · rw [if_pos hmod, if_pos hmod]
    · rw [if_neg hmod, if_neg hmod]

/-- Witness for C8: a stream positioned before its last player, a two-element
buffer whose root level 5 is not exceeded by the next player's level 5. -/
theorem claim_C8_witness :
    Online.admitStep ⟨"r", 5⟩ [⟨"s", 8⟩] ⟨"n", 5⟩ = [⟨"r", 5⟩, ⟨"s", 8⟩] ∧
    Online.processLoop ⟨[⟨"n", 5⟩], 0⟩ [⟨"r", 5⟩, ⟨"s", 8⟩] 2 3 [(3, 9)] =
      Online.processLoop ⟨[⟨"n", 5⟩], 1⟩ [⟨"r", 5⟩, ⟨"s", 8⟩] 3 3
        (if (3 : Nat) % 3 = 0 then [(3, 9)] ++ [(3, (⟨"r", 5⟩ : Player).level_)]
         else [(3, 9)]) :=
  claim_C8 ⟨[⟨"n", 5⟩], 0⟩ ⟨[⟨"n", 5⟩], 1⟩ ⟨"r", 5⟩ ⟨"n", 5⟩ [⟨"s", 8⟩] 2 3 [(3, 9)]
    (by decide) (by rfl) (by decide) (by decide)

theorem rankIncoming_zero (v : List Player) :
    Online.rankIncoming ⟨v, 0⟩ 0 = Except.error RankErr.emptyFront := by
  unfold Online.rankIncoming
  rw [primeLoop_clean v 0, show min 0 v.length = 0 by omega, List.take_zero]
  show Online.rankAfterPrime (Online.makeHeapGreater []) 0 ⟨v, 0⟩ 0 =
    Except.error RankErr.emptyFront
  have hmh : Online.makeHeapGreater [] = [] := by
    unfold Online.makeHeapGreater sortPlayers
    simp
  rw [hmh]
  unfold Online.rankAfterPrime
  rfl

/-- C7: a `VectorPlayerStream` call fails exactly when `remaining` was zero at
call time (on reachable states, where the cursor never exceeds the size); it
succeeds exactly when `remaining` was positive; and since `rankIncoming` checks
`remaining() > 0` before every `nextPlayer()` call in both of its loops, the
tracker can never produce the exhaustion error, for any interval. -/
theorem claim_C7 (v : List Player) (k R : Nat) (hk : k ≤ v.length) :
    ((∃ p s', nextPlayer ⟨v, k⟩ = Except.ok (p, s')) ↔ 0 < remaining ⟨v, k⟩) ∧
    ((∃ e, nextPlayer ⟨v, k⟩ = Except.error e) ↔ remaining ⟨v, k⟩ = 0) ∧
    Online.rankIncoming ⟨v, 0⟩ R ≠ Except.error RankErr.sourceExhausted := by
  have hrem : remaining ⟨v, k⟩ = v.length - k := rfl
  refine ⟨⟨?_, ?_⟩, ⟨?_, ?_⟩, ?_⟩
  · rintro ⟨p, s', hok⟩
    by_contra hnot
    have hkv : v.length ≤ k := by
      rw [hrem] at hnot
      omega
    unfold nextPlayer at hok
    rw [if_pos (show k ≥ v.length from hkv)] at hok
    exact absurd hok (by simp)
  · intro hpos
    have hkv : k < v.length := by
      rw [hrem] at hpos
      omega
    exact ⟨_, _, nextPlayer_ok_eq v k hkv⟩
  · rintro ⟨e, herr⟩
    by_contra hnot
    have hkv : k < v.length := by
      rw [hrem] at hnot
      omega
    rw [nextPlayer_ok_eq v k hkv] at herr
    exact absurd herr (by simp)
  · intro h0
    refine ⟨"No more players remaining in the stream.", ?_⟩
    unfold nextPlayer
    rw [if_pos (show k ≥ v.length from by
      rw [hrem] at h0
      omega)]
  · by_cases hR : R = 0
    · subst hR
      rw [rankIncoming_zero v]
      simp
    · obtain ⟨res, h1, -⟩ := rankIncoming_spec v R (by omega)
      rw [h1]
      simp

/-- Witness for C7 at a one-player stream fully consumed, interval 1. -/
theorem claim_C7_witness :
    ((∃ p s', nextPlayer ⟨[⟨"x", 4⟩], 1⟩ = Except.ok (p, s')) ↔
      0 < remaining ⟨[⟨"x", 4⟩], 1⟩) ∧
    ((∃ e, nextPlayer ⟨[⟨"x", 4⟩], 1⟩ = Except.error e) ↔
      remaining ⟨[⟨"x", 4⟩], 1⟩ = 0) ∧
    Online.rankIncoming ⟨[⟨"x", 4⟩], 0⟩ 1 ≠ Except.error RankErr.sourceExhausted :=
  claim_C7 [⟨"x", 4⟩] 1 1 (by decide)

/-- C4, what the code actually does: a reporting interval of zero is not
rejected.  The priming loop is skipped, line 197's `playerCount ==
reporting_interval` holds with both sides zero, and line 198 evaluates
`topPlayers.front()` on an empty vector — undefined behaviour (surfaced here as
`emptyFront`), reached before the `% 0` of lines 212/218 — for every stream,
including the empty one.  No InvalidInterval-style rejection exists. -/
theorem claim_C4_code (v : List Player) :
    Online.rankIncoming ⟨v, 0⟩ 0 = Except.error RankErr.emptyFront :=
  rankIncoming_zero v
